import Mathlib

/-!
Verification development for the exp-avro-json repository.

The repository's Go code (src/server, src/unnamed) is a thin caller of an
Avro codec: it builds native record maps (`structToMap`,
`convertToAvroMap`), feeds them to the codec's binary/textual
encode/decode operations, and reports sizes.  The codec itself is not
part of the repository sources, so it is modelled here from the
specification (schema-driven binary and textual encoding with zig-zag
varints, block-encoded maps, tagged unions and records with field
defaults).  The caller-side conversion helpers are translated directly
from the Go sources.
-/

set_option maxHeartbeats 1000000

/-- Modelled from the spec: the `DecodeError` taxonomy of the codec
(truncated input, invalid varint, invalid union index, unknown union tag,
invalid UTF-8, trailing bytes, malformed input); the codec implementation
is not in the repository sources. -/
inductive DecErr
  | truncated
  | invalidVarint
  | invalidUnionIndex
  | unknownUnionTag
  | invalidUtf8
  | trailingBytes
  | malformed
deriving DecidableEq

/-- Modelled from the spec: the `EncodeError` taxonomy of the codec
(type mismatch, missing required field, no matching union branch); the
codec implementation is not in the repository sources. -/
inductive EncErr
  | typeMismatch
  | missingField
  | noMatchingBranch
deriving DecidableEq

/-- Modelled from the spec: the native `Value` model of the codec — a
tagged value with null, boolean, 64-bit integer, string, map and record
kinds (the kinds used by the repository's schemas); a union is not a
distinct value kind.  Map and record entries are association lists; a
canonical map value keeps its entries strictly sorted by key, which is
the representation of a "mapping from string to Value, insertion order
irrelevant". -/
inductive Value
  | vnull
  | vbool (b : Bool)
  | vlong (n : Int)
  | vstr (s : String)
  | vmap (entries : List (String × Value))
  | vrec (fields : List (String × Value))

/-- Modelled from the spec: the schema node model of the codec,
restricted to the kinds appearing in the repository's schemas
(`wrapperSchema`, `logDataSchema`): null, boolean, long, string, maps
with string keys, unions, and records whose fields carry an optional
default value. -/
inductive Schema
  | snull
  | sboolean
  | slong
  | sstring
  | smap (values : Schema)
  | sunion (branches : List Schema)
  | srecord (rname : String) (fields : List (String × Schema × Option Value))

/-- Modelled from the spec: the canonical textual name of a schema kind,
used as the single-entry wrapper key for non-null union branches
(primitive kinds use their type name, records use their declared name). -/
def branchName : Schema → String
  | .snull => "null"
  | .sboolean => "boolean"
  | .slong => "long"
  | .sstring => "string"
  | .smap _ => "map"
  | .sunion _ => "union"
  | .srecord n _ => n

/-- Modelled from the spec: whether a value's kind is compatible with a
union branch, used for first-compatible-branch resolution at encode
time. -/
def kindMatches : Schema → Value → Bool
  | .snull, .vnull => true
  | .sboolean, .vbool _ => true
  | .slong, .vlong _ => true
  | .sstring, .vstr _ => true
  | .smap _, .vmap _ => true
  | .srecord _ _, .vrec _ => true
  | _, _ => false

/-- Modelled from the spec: resolve a value to the first compatible
union branch in declaration order, returning the zero-based branch
index and the branch schema. -/
def firstMatch : List Schema → Value → Option (Nat × Schema)
  | [], _ => none
  | b :: bs, v =>
    if kindMatches b v then some (0, b)
    else match firstMatch bs v with
      | some (i, br) => some (i + 1, br)
      | none => none

theorem firstMatch_mem : ∀ {bs : List Schema} {v : Value} {i : Nat} {br : Schema},
    firstMatch bs v = some (i, br) → br ∈ bs := by
  intro bs
  induction bs with
  | nil => intro v i br h; simp [firstMatch] at h
  | cons b rest ih =>
    intro v i br h
    simp only [firstMatch] at h
    by_cases hk : kindMatches b v
    · rw [if_pos hk] at h
      simp only [Option.some.injEq, Prod.mk.injEq] at h
      simp [h.2]
    · rw [if_neg hk] at h
      match hrec : firstMatch rest v with
      | some (j, br2) =>
        rw [hrec] at h
        simp only [Option.some.injEq, Prod.mk.injEq] at h
        obtain ⟨hi, hbr⟩ := h
        subst hbr
        exact List.mem_cons_of_mem _ (ih hrec)
      | none => rw [hrec] at h; exact absurd h (by simp)

theorem firstMatch_get : ∀ {bs : List Schema} {v : Value} {i : Nat} {br : Schema},
    firstMatch bs v = some (i, br) → bs.get? i = some br := by
  intro bs
  induction bs with
  | nil => intro v i br h; simp [firstMatch] at h
  | cons b rest ih =>
    intro v i br h
    simp only [firstMatch] at h
    by_cases hk : kindMatches b v
    · rw [if_pos hk] at h
      simp only [Option.some.injEq, Prod.mk.injEq] at h
      obtain ⟨hi, hbr⟩ := h
      subst hi
      subst hbr
      rfl
    · rw [if_neg hk] at h
      match hrec : firstMatch rest v with
      | some (j, br2) =>
        rw [hrec] at h
        simp only [Option.some.injEq, Prod.mk.injEq] at h
        obtain ⟨hi, hbr⟩ := h
        subst hi
        subst hbr
        simpa using ih hrec
      | none => rw [hrec] at h; exact absurd h (by simp)

/-- Modelled from the spec: the zig-zag mapping of a signed 64-bit
integer to an unsigned integer (small magnitudes map to small naturals,
`-1` maps to `1`). -/
def zigzag (n : Int) : Nat :=
  if 0 ≤ n then 2 * n.toNat else 2 * (-(n + 1)).toNat + 1

/-- Modelled from the spec: the inverse of the zig-zag mapping, applied
after reading an unsigned varint. -/
def unzigzag (u : Nat) : Int :=
  if u % 2 = 0 then ((u / 2 : Nat) : Int) else -(((u / 2 : Nat) : Int) + 1)

theorem unzigzag_zigzag (n : Int) : unzigzag (zigzag n) = n := by
  unfold zigzag unzigzag
  by_cases h : 0 ≤ n
  · simp [h, Nat.mul_div_cancel_left, Int.toNat_of_nonneg h]
  · have h2 : 2 * (-(n + 1)).toNat + 1 = 2 * (-(n + 1)).toNat + 1 := rfl
    simp only [h, if_false]
    have hmod : (2 * (-(n + 1)).toNat + 1) % 2 = 1 := by omega
    have hdiv : (2 * (-(n + 1)).toNat + 1) / 2 = (-(n + 1)).toNat := by omega
    simp only [hmod, hdiv]
    have hn : 0 ≤ -(n + 1) := by omega
    simp only [Int.toNat_of_nonneg hn]
    omega

/-- Modelled from the spec: base-128 little-endian varint byte groups —
low seven bits per byte, continuation bit `0x80` on all but the last
byte; the "bytes" of the model are naturals below 256. -/
def varintEnc (n : Nat) : List Nat :=
  if n < 128 then [n] else (n % 128 + 128) :: varintEnc (n / 128)
termination_by n
decreasing_by
  simp_wf
  omega

/-- Modelled from the spec: varint reader with a maximum byte count for
the target integer width (ten bytes for 64 bits); failing with
`truncated` when the buffer runs out and with `invalidVarint` when the
continuation-bit chain exceeds the limit. -/
def varintDec : Nat → List Nat → Except DecErr (Nat × List Nat)
  | _, [] => .error .truncated
  | 0, _ => .error .invalidVarint
  | k + 1, b :: rest =>
    if b < 128 then .ok (b, rest)
    else
      match varintDec k rest with
      | .ok (v, r) => .ok ((b - 128) + 128 * v, r)
      | .error e => .error e

theorem varintEnc_length_le : ∀ (k n : Nat), n < 128 ^ k → 1 ≤ k →
    (varintEnc n).length ≤ k := by
  intro k
  induction k with
  | zero => intro n h hk; omega
  | succ k ih =>
    intro n h hk
    rw [varintEnc]
    by_cases hn : n < 128
    · simp only [hn, if_true, List.length_cons, List.length_nil]
      omega
    · simp only [hn, if_false, List.length_cons]
      have hk1 : 1 ≤ k := by
        by_contra hc
        have hk0 : k = 0 := by omega
        subst hk0
        simp only [pow_succ, pow_zero, one_mul] at h
        omega
      have hdiv : n / 128 < 128 ^ k := by
        apply Nat.div_lt_of_lt_mul
        have hpow : (128 : Nat) ^ (k + 1) = 128 * 128 ^ k := by ring
        omega
      have := ih (n / 128) hdiv hk1
      omega

theorem varintEnc_ne_nil (n : Nat) : varintEnc n ≠ [] := by
  rw [varintEnc]
  by_cases hn : n < 128 <;> simp [hn]

theorem varintDec_varintEnc : ∀ (n : Nat) (rest : List Nat) (k : Nat),
    (varintEnc n).length ≤ k → varintDec k (varintEnc n ++ rest) = .ok (n, rest) := by
  intro n
  induction n using Nat.strong_induction_on with
  | _ n ih =>
    intro rest k h
    rw [varintEnc] at h ⊢
    by_cases hn : n < 128
    · simp only [hn, if_true, List.length_cons, List.length_nil] at h
      obtain ⟨k2, rfl⟩ : ∃ k2, k = k2 + 1 := ⟨k - 1, by omega⟩
      simp [varintDec, hn]
    · simp only [hn, if_false, List.length_cons] at h ⊢
      obtain ⟨k2, rfl⟩ : ∃ k2, k = k2 + 1 := ⟨k - 1, by omega⟩
      have hge : ¬ (n % 128 + 128 < 128) := by omega
      have hlt : n / 128 < n := Nat.div_lt_self (by omega) (by omega)
      have hrec := ih (n / 128) hlt rest k2 (by omega)
      simp only [List.cons_append, varintDec, hge, if_false, List.append_eq]
      rw [hrec]
      have heq : n % 128 + 128 * (n / 128) = n := by omega
      simp [heq]

theorem varintDec_of_proper : ∀ (u : Nat) (p q : List Nat) (k : Nat),
    p ++ q = varintEnc u → q ≠ [] → p.length < k → varintDec k p = .error .truncated := by
  intro u
  induction u using Nat.strong_induction_on with
  | _ u ih =>
    intro p q k hpq hq hk
    rw [varintEnc] at hpq
    by_cases hu : u < 128
    · simp only [hu, if_true] at hpq
      match p, hpq with
      | [], _ => cases k <;> rfl
      | [x], hpq => simp at hpq; exact absurd hpq.2 hq
    · simp only [hu, if_false] at hpq
      match p with
      | [] => cases k <;> rfl
      | x :: p2 =>
        simp only [List.cons_append, List.cons.injEq] at hpq
        obtain ⟨rfl, hpq2⟩ := hpq
        obtain ⟨k2, rfl⟩ : ∃ k2, k = k2 + 1 := ⟨k - 1, by omega⟩
        have hge : ¬ (u % 128 + 128 < 128) := by omega
        have hlt : u / 128 < u := Nat.div_lt_self (by omega) (by omega)
        have hrec := ih (u / 128) hlt p2 q k2 hpq2 hq (by simp at hk; omega)
        simp only [varintDec, hge, if_false, hrec]

/-- Modelled from the spec: recover a character from a stored code
point, failing when the code point is not a valid scalar value (the
model's rendering of UTF-8 validity). -/
def charFromNat (n : Nat) : Option Char :=
  if h : n.isValidChar then some (Char.ofNatAux n h) else none

theorem charFromNat_toNat (c : Char) : charFromNat c.toNat = some c := by
  have hv : c.toNat.isValidChar := c.valid
  unfold charFromNat
  rw [dif_pos hv]
  have h2 := Char.ofNat_toNat c
  unfold Char.ofNat at h2
  rw [dif_pos hv] at h2
  rw [h2]

/-- Modelled from the spec: the encoded payload of a string — one code
unit per character (the model's byte sequence for UTF-8 text). -/
def strBytes (s : String) : List Nat :=
  s.data.map Char.toNat

/-- Modelled from the spec: recover the character sequence of a string
payload, failing on any invalid code point. -/
def charsFromNats : List Nat → Option (List Char)
  | [] => some []
  | n :: rest =>
    match charFromNat n with
    | none => none
    | some c =>
      match charsFromNats rest with
      | none => none
      | some cs => some (c :: cs)

theorem charsFromNats_strBytes (cs : List Char) :
    charsFromNats (cs.map Char.toNat) = some cs := by
  induction cs with
  | nil => rfl
  | cons c rest ih =>
    simp only [List.map_cons, charsFromNats, charFromNat_toNat, ih]

/-- Modelled from the spec: binary encoding of a string — zig-zag
varint length prefix followed by the payload code units. -/
def strEnc (s : String) : List Nat :=
  varintEnc (zigzag (s.length : Int)) ++ strBytes s

/-- Modelled from the spec: binary decoding of a string — read the
zig-zag varint length, fail `malformed` on a negative length, fail
`truncated` when fewer payload bytes remain than announced, fail
`invalidUtf8` on an invalid code point. -/
def strDec (b : List Nat) : Except DecErr (String × List Nat) :=
  match varintDec 10 b with
  | .error e => .error e
  | .ok (u, rest) =>
    let len := unzigzag u
    if len < 0 then .error .malformed
    else if rest.length < len.toNat then .error .truncated
    else
      match charsFromNats (rest.take len.toNat) with
      | some cs => .ok (String.mk cs, rest.drop len.toNat)
      | none => .error .invalidUtf8

theorem zigzag_ofNat (m : Nat) : zigzag (m : Int) = 2 * m := by
  simp [zigzag, Int.toNat_ofNat]

theorem zigzag_lt_of_range {n : Int} (h1 : -(2 ^ 63) ≤ n) (h2 : n < 2 ^ 63) :
    zigzag n < 2 ^ 64 := by
  unfold zigzag
  by_cases h : 0 ≤ n <;> simp only [h, if_true, if_false] <;> omega

theorem pow128_ten : (2 : Nat) ^ 64 ≤ 128 ^ 10 := by norm_num

theorem varintEnc_zigzag_le_ten {n : Int} (h1 : -(2 ^ 63) ≤ n) (h2 : n < 2 ^ 63) :
    (varintEnc (zigzag n)).length ≤ 10 := by
  apply varintEnc_length_le 10
  · have := zigzag_lt_of_range h1 h2
    have := pow128_ten
    omega
  · omega

theorem strBytes_length (s : String) : (strBytes s).length = s.length := by
  unfold strBytes
  rw [List.length_map]
  rfl

theorem strDec_strEnc (s : String) (hlen : s.length < 2 ^ 63) (rest : List Nat) :
    strDec (strEnc s ++ rest) = .ok (s, rest) := by
  unfold strEnc strDec
  rw [List.append_assoc]
  have hb : ((s.length : Int) ≥ -(2 ^ 63)) := by omega
  have h10 : (varintEnc (zigzag (s.length : Int))).length ≤ 10 :=
    varintEnc_zigzag_le_ten (by omega) (by exact_mod_cast hlen)
  rw [varintDec_varintEnc _ _ 10 h10]
  simp only [unzigzag_zigzag]
  have hneg : ¬ ((s.length : Int) < 0) := by omega
  rw [if_neg hneg]
  have htn : (s.length : Int).toNat = s.length := by omega
  have hlen2 : (strBytes s ++ rest).length ≥ s.length := by
    simp [strBytes_length]
  rw [htn]
  rw [if_neg (by omega)]
  have htake : (strBytes s ++ rest).take s.length = strBytes s := by
    rw [← strBytes_length s]
    exact List.take_left _ _
  have hdrop : (strBytes s ++ rest).drop s.length = rest := by
    rw [← strBytes_length s]
    exact List.drop_left _ _
  rw [htake, hdrop]
  unfold strBytes
  rw [charsFromNats_strBytes]

theorem strEnc_ne_nil (s : String) : strEnc s ≠ [] := by
  unfold strEnc
  intro h
  have := varintEnc_ne_nil (zigzag (s.length : Int))
  simp only [List.append_eq_nil] at h
  exact this h.1

theorem strDec_of_proper (s : String) (hlen : s.length < 2 ^ 63) :
    ∀ p t, p ++ t = strEnc s → t ≠ [] → strDec p = .error .truncated := by
  intro p t hpt ht
  unfold strEnc at hpt
  have h10 : (varintEnc (zigzag (s.length : Int))).length ≤ 10 :=
    varintEnc_zigzag_le_ten (by omega) (by exact_mod_cast hlen)
  rcases List.append_eq_append_iff.mp hpt with ⟨q, hvb, hts⟩ | ⟨q, hp, hpay⟩
  · by_cases hq : q = []
    · subst hq
      rw [List.append_nil] at hvb
      rw [List.nil_append] at hts
      obtain rfl := hvb.symm
      subst hts
      have hpos : 0 < s.length := by
        by_contra hc
        have hz : s.data.length = 0 := by
          have : s.length = 0 := by omega
          exact this
        apply ht
        unfold strBytes
        simp [List.length_eq_zero.mp hz]
      unfold strDec
      rw [show varintEnc (zigzag (s.length : Int)) =
            varintEnc (zigzag (s.length : Int)) ++ [] from (List.append_nil _).symm]
      rw [varintDec_varintEnc _ _ 10 h10]
      simp only [unzigzag_zigzag]
      rw [if_neg (by omega)]
      rw [if_pos (by simp; omega)]
    · have hdec : varintDec 10 p = .error .truncated := by
        apply varintDec_of_proper (zigzag (s.length : Int)) p q 10 hvb.symm hq
        have hlt : p.length < (varintEnc (zigzag (s.length : Int))).length := by
          rw [hvb]
          simp only [List.length_append]
          have : 0 < q.length := List.length_pos.mpr hq
          omega
        omega
      unfold strDec
      rw [hdec]
  · subst hp
    unfold strDec
    rw [varintDec_varintEnc _ _ 10 h10]
    simp only [unzigzag_zigzag]
    rw [if_neg (by omega)]
    have hqlen : q.length < s.length := by
      have h1 : (strBytes s).length = q.length + t.length := by
        rw [hpay]
        simp
      have h2 := strBytes_length s
      have h3 : 0 < t.length := List.length_pos.mpr ht
      omega
    rw [if_pos (by simp; omega)]

/-- Modelled from the spec: canonical entry order for map values — the
determinism requirement ("deterministic, total ordering of output bytes
given schema+value") together with a map value's insertion-order
irrelevance forces a canonical order, taken here as sorting by key. -/
def sortEntries (l : List (String × Value)) : List (String × Value) :=
  l.mergeSort (fun a b => decide (a.1 ≤ b.1))

/-- Modelled from the spec: the value a record field contributes to the
encoding — the value's entry when present, else the declared default,
else a `missingField` failure. -/
def fieldValue (fdef : Option Value) : Option Value → Except EncErr Value
  | some w => .ok w
  | none =>
    match fdef with
    | some d => .ok d
    | none => .error .missingField

mutual

/-- Modelled from the spec: the binary encoder `encodeBinary(schema,
value)` of the codec — null encodes to zero bytes, booleans to one byte,
longs to zig-zag varints, strings to a length-prefixed payload, maps to
a single count-prefixed block of key/value pairs terminated by a zero
count (an empty map is a bare zero count), unions to the zero-based
index of the first kind-compatible branch followed by the branch
encoding, records to the concatenation of the fields in declaration
order with absent fields taken from the declared default.  Kind
mismatches fail with `typeMismatch`; the codec implementation is not in
the repository sources. -/
def encodeB : Schema → Value → Except EncErr (List Nat)
  | .snull, .vnull => .ok []
  | .sboolean, .vbool b => .ok [if b then 1 else 0]
  | .slong, .vlong n => .ok (varintEnc (zigzag n))
  | .sstring, .vstr s => .ok (strEnc s)
  | .smap vs, .vmap l =>
    (encodeMEntries vs (sortEntries l)).map (fun body =>
      if (sortEntries l).length = 0 then [0]
      else varintEnc (zigzag ((sortEntries l).length : Int)) ++ body ++ [0])
  | .sunion bs, v =>
    match hm : firstMatch bs v with
    | none => .error .noMatchingBranch
    | some (i, br) =>
      (encodeB br v).map (fun pb => varintEnc (zigzag (i : Int)) ++ pb)
  | .srecord _ flds, .vrec entries => encodeRFields flds entries
  | _, _ => .error .typeMismatch
termination_by s v => (3 * sizeOf s, 0)
decreasing_by
  all_goals simp_wf
  all_goals try (apply Prod.Lex.left; omega)
  all_goals
    (have hmem := List.sizeOf_lt_of_mem (firstMatch_mem hm)
     apply Prod.Lex.left
     omega)

/-- Modelled from the spec: encode the entries of one map block — each
entry is the encoded string key followed by the encoded value. -/
def encodeMEntries (vs : Schema) : List (String × Value) → Except EncErr (List Nat)
  | [] => .ok []
  | (k, w) :: rest =>
    (encodeB vs w).bind (fun wb =>
      (encodeMEntries vs rest).map (fun restb => strEnc k ++ wb ++ restb))
termination_by l => (3 * sizeOf vs + 1, sizeOf l)
decreasing_by
  all_goals simp_wf
  all_goals try (apply Prod.Lex.left; omega)
  all_goals (apply Prod.Lex.right; omega)

/-- Modelled from the spec: encode record fields in declaration order;
a field absent from the value uses the declared default, and fails with
`missingField` when there is no default. -/
def encodeRFields : List (String × Schema × Option Value) → List (String × Value) →
    Except EncErr (List Nat)
  | [], _ => .ok []
  | (fn, ft, fdef) :: rest, entries =>
    (fieldValue fdef (entries.lookup fn)).bind (fun w =>
      (encodeB ft w).bind (fun fb =>
        (encodeRFields rest entries).map (fun restb => fb ++ restb)))
termination_by flds entries => (3 * sizeOf flds + 2, 0)
decreasing_by
  all_goals simp_wf
  all_goals (apply Prod.Lex.left; omega)

end

mutual

/-- Modelled from the spec: the binary decoder `decodeBinary(schema,
bytes)` of the codec — a single forward cursor (represented by
returning the unconsumed suffix), failing with `truncated` when fewer
bytes remain than the current step requires, `invalidVarint` on an
unterminated varint, `invalidUnionIndex` on an out-of-range union
index, `invalidUtf8` on invalid string payloads, and `malformed` on a
negative block count; the codec implementation is not in the repository
sources. -/
def decodeB : Schema → List Nat → Except DecErr (Value × List Nat)
  | .snull, b => .ok (.vnull, b)
  | .sboolean, b =>
    match b with
    | [] => .error .truncated
    | x :: r =>
      if x = 0 then .ok (.vbool false, r)
      else if x = 1 then .ok (.vbool true, r)
      else .error .malformed
  | .slong, b =>
    (varintDec 10 b).map (fun ur => (.vlong (unzigzag ur.1), ur.2))
  | .sstring, b =>
    (strDec b).map (fun sr => (.vstr sr.1, sr.2))
  | .smap vs, b =>
    (decodeMBlocks vs (b.length + 1) b).map (fun esr => (.vmap esr.1, esr.2))
  | .sunion bs, b =>
    (varintDec 10 b).bind (fun ur =>
      if h : 0 ≤ unzigzag ur.1 ∧ (unzigzag ur.1).toNat < bs.length then
        decodeB (bs.get ⟨(unzigzag ur.1).toNat, h.2⟩) ur.2
      else .error .invalidUnionIndex)
  | .srecord _ flds, b =>
    (decodeRFields flds b).map (fun esr => (.vrec esr.1, esr.2))
termination_by s b => (3 * sizeOf s, 0, 0)
decreasing_by
  all_goals simp_wf
  all_goals try (apply Prod.Lex.left; omega)
  all_goals
    (have hmem := List.sizeOf_lt_of_mem (List.getElem_mem h.2)
     apply Prod.Lex.left
     omega)

/-- Modelled from the spec: decode the block sequence of a map — read a
zig-zag varint block count, stop at a zero count, fail `malformed` on a
negative count, otherwise read that many entries and continue with the
next block.  The natural-number argument bounds the number of block
headers that can still be read; callers pass one more than the buffer
length, which a run of one-byte block counts can never exhaust. -/
def decodeMBlocks (vs : Schema) : Nat → List Nat → Except DecErr (List (String × Value) × List Nat)
  | 0, _ => .error .truncated
  | f + 1, b =>
    (varintDec 10 b).bind (fun ur =>
      if unzigzag ur.1 = 0 then .ok ([], ur.2)
      else if unzigzag ur.1 < 0 then .error .malformed
      else
        (decodeMItems vs (unzigzag ur.1).toNat ur.2).bind (fun esr =>
          (decodeMBlocks vs f esr.2).map (fun es2r => (esr.1 ++ es2r.1, es2r.2))))
termination_by f b => (3 * sizeOf vs + 2, f, 0)
decreasing_by
  all_goals simp_wf
  all_goals try (apply Prod.Lex.left; omega)
  all_goals (apply Prod.Lex.right; apply Prod.Lex.left; omega)

/-- Modelled from the spec: decode a fixed number of map entries, each
an encoded string key followed by an encoded value. -/
def decodeMItems (vs : Schema) : Nat → List Nat → Except DecErr (List (String × Value) × List Nat)
  | 0, b => .ok ([], b)
  | n + 1, b =>
    (strDec b).bind (fun kr =>
      (decodeB vs kr.2).bind (fun wr =>
        (decodeMItems vs n wr.2).map (fun esr => ((kr.1, wr.1) :: esr.1, esr.2))))
termination_by n b => (3 * sizeOf vs + 1, 0, n)
decreasing_by
  all_goals simp_wf
  all_goals try (apply Prod.Lex.left; omega)
  all_goals (apply Prod.Lex.right; apply Prod.Lex.right; omega)

/-- Modelled from the spec: decode record fields in declaration order,
pairing each declared field name with its decoded value. -/
def decodeRFields : List (String × Schema × Option Value) → List Nat →
    Except DecErr (List (String × Value) × List Nat)
  | [], b => .ok ([], b)
  | (fn, ft, _) :: rest, b =>
    (decodeB ft b).bind (fun wr =>
      (decodeRFields rest wr.2).map (fun esr => ((fn, wr.1) :: esr.1, esr.2)))
termination_by flds b => (3 * sizeOf flds + 2, 0, 0)
decreasing_by
  all_goals simp_wf
  all_goals (apply Prod.Lex.left; omega)

end

/-- Modelled from the spec: the whole-buffer binary decode convenience —
decode one top-level value and additionally fail with `trailingBytes`
if bytes remain after it; on success the final cursor position equals
the buffer length. -/
def decodeWhole (s : Schema) (b : List Nat) : Except DecErr Value :=
  match decodeB s b with
  | .error e => .error e
  | .ok (v, rest) => if rest = [] then .ok v else .error .trailingBytes

/-- Keys in strictly increasing order: the canonical entry order of a
map value. -/
def keysStrictSorted : List String → Bool
  | [] => true
  | [_] => true
  | a :: b :: rest => decide (a < b) && keysStrictSorted (b :: rest)

mutual

/-- Modelled from the spec: validation of a value against a schema —
the value's kind matches the schema's kind, longs are within the signed
64-bit range, strings and map keys are within the 64-bit length range,
map entries are canonically ordered and validate against the value
schema, a union value validates against its first kind-compatible
branch, and a record value carries exactly the declared fields in
declaration order with validating values. -/
def validB : Schema → Value → Bool
  | .snull, .vnull => true
  | .sboolean, .vbool _ => true
  | .slong, .vlong n => decide (-(2 ^ 63 : Int) ≤ n) && decide (n < (2 ^ 63 : Int))
  | .sstring, .vstr s => decide (s.length < 2 ^ 63)
  | .smap vs, .vmap es =>
    keysStrictSorted (es.map Prod.fst) && decide (es.length < 2 ^ 63) && validMEntries vs es
  | .sunion bs, v =>
    match hm : firstMatch bs v with
    | some (_, br) => validB br v
    | none => false
  | .srecord _ flds, .vrec entries => validRFields flds entries
  | _, _ => false
termination_by s v => (3 * sizeOf s, 0)
decreasing_by
  all_goals simp_wf
  all_goals try (apply Prod.Lex.left; omega)
  all_goals
    (have hmem := List.sizeOf_lt_of_mem (firstMatch_mem hm)
     apply Prod.Lex.left
     omega)

/-- Modelled from the spec: validate map entries — keys within the
64-bit length range and values validating against the value schema. -/
def validMEntries (vs : Schema) : List (String × Value) → Bool
  | [] => true
  | (k, w) :: rest => decide (k.length < 2 ^ 63) && validB vs w && validMEntries vs rest
termination_by l => (3 * sizeOf vs + 1, sizeOf l)
decreasing_by
  all_goals simp_wf
  all_goals try (apply Prod.Lex.left; omega)
  all_goals (apply Prod.Lex.right; omega)

/-- Modelled from the spec: validate record entries against the
declared fields — same names in declaration order, each value
validating against its field schema. -/
def validRFields : List (String × Schema × Option Value) → List (String × Value) → Bool
  | [], [] => true
  | (fn, ft, _) :: fr, (en, w) :: er => (fn == en) && validB ft w && validRFields fr er
  | [], _ :: _ => false
  | _ :: _, [] => false
termination_by flds entries => (3 * sizeOf flds + 2, 0)
decreasing_by
  all_goals simp_wf
  all_goals (apply Prod.Lex.left; omega)

end

def isUnion : Schema → Bool
  | .sunion _ => true
  | _ => false

/-- No string occurs twice. -/
def allDistinct : List String → Bool
  | [] => true
  | x :: xs => !(xs.contains x) && allDistinct xs

mutual

/-- Modelled from the spec: schema well-formedness as established by
schema parsing — no duplicate record field names, no union nested
directly inside a union, distinct union branch names. -/
def wfB : Schema → Bool
  | .snull => true
  | .sboolean => true
  | .slong => true
  | .sstring => true
  | .smap vs => wfB vs
  | .sunion bs =>
    allDistinct (bs.map branchName) && decide (bs.length < 2 ^ 63) && wfBranches bs
  | .srecord _ flds => allDistinct (flds.map Prod.fst) && wfFieldList flds
termination_by s => (3 * sizeOf s, 0)
decreasing_by
  all_goals simp_wf
  all_goals (apply Prod.Lex.left; omega)

/-- Modelled from the spec: well-formedness of union branches — each
branch is not itself a union and is well-formed. -/
def wfBranches : List Schema → Bool
  | [] => true
  | b :: rest => !(isUnion b) && wfB b && wfBranches rest
termination_by bs => (3 * sizeOf bs + 2, 0)
decreasing_by
  all_goals simp_wf
  all_goals (apply Prod.Lex.left; omega)

/-- Modelled from the spec: well-formedness of record field schemas. -/
def wfFieldList : List (String × Schema × Option Value) → Bool
  | [] => true
  | (_, ft, _) :: rest => wfB ft && wfFieldList rest
termination_by flds => (3 * sizeOf flds + 2, 0)
decreasing_by
  all_goals simp_wf
  all_goals (apply Prod.Lex.left; omega)

end

theorem varintEnc_small {n : Nat} (h : n < 128) : varintEnc n = [n] := by
  rw [varintEnc, if_pos h]

theorem wfBranches_mem : ∀ {bs : List Schema} {b : Schema},
    wfBranches bs = true → b ∈ bs → wfB b = true ∧ isUnion b = false := by
  intro bs
  induction bs with
  | nil => intro b _ hm; simp at hm
  | cons hd rest ih =>
    intro b hwf hm
    simp only [wfBranches, Bool.and_eq_true, Bool.not_eq_true'] at hwf
    rcases List.mem_cons.mp hm with rfl | hm2
    · exact ⟨hwf.1.2, hwf.1.1⟩
    · exact ih hwf.2 hm2

theorem wfFieldList_mem : ∀ {flds : List (String × Schema × Option Value)} {f},
    wfFieldList flds = true → f ∈ flds → wfB f.2.1 = true := by
  intro flds
  induction flds with
  | nil => intro f _ hm; simp at hm
  | cons hd rest ih =>
    intro f hwf hm
    match hd, hwf with
    | (fn, ft, fd), hwf =>
      simp only [wfFieldList, Bool.and_eq_true] at hwf
      rcases List.mem_cons.mp hm with rfl | hm2
      · exact hwf.1
      · exact ih hwf.2 hm2

theorem firstMatch_lt {bs : List Schema} {v : Value} {i : Nat} {br : Schema}
    (h : firstMatch bs v = some (i, br)) : i < bs.length := by
  have hg := firstMatch_get h
  exact (List.get?_eq_some.mp hg).1

theorem keysStrictSorted_pairwise : ∀ (ks : List String),
    keysStrictSorted ks = true → List.Pairwise (· < ·) ks := by
  intro ks
  induction ks with
  | nil => intro _; exact List.Pairwise.nil
  | cons a rest ih =>
    intro h
    match rest, h with
    | [], _ => simp
    | b :: rest2, h =>
      simp only [keysStrictSorted, Bool.and_eq_true, decide_eq_true_eq] at h
      have hp := ih (by
        have := h.2
        simpa [keysStrictSorted] using this)
      constructor
      · intro x hx
        rcases List.mem_cons.mp hx with rfl | hx2
        · exact h.1
        · exact lt_trans h.1 ((List.pairwise_cons.mp hp).1 x hx2)
      · exact hp

theorem sortEntries_of_canonical {l : List (String × Value)}
    (h : keysStrictSorted (l.map Prod.fst) = true) : sortEntries l = l := by
  unfold sortEntries
  apply List.mergeSort_of_sorted
  have hp := keysStrictSorted_pairwise _ h
  have hp2 : List.Pairwise (fun x y : String × Value => x.1 < y.1) l :=
    (List.pairwise_map).mp hp
  exact hp2.imp (fun hxy => by simpa using le_of_lt hxy)

theorem encodeRFields_cons_irrel :
    ∀ (rest : List (String × Schema × Option Value)) (en : String) (w : Value)
      (er : List (String × Value)),
    ¬ (en ∈ rest.map Prod.fst) →
    encodeRFields rest ((en, w) :: er) = encodeRFields rest er := by
  intro rest
  induction rest with
  | nil => intro en w er _; simp [encodeRFields]
  | cons hd rest2 ih =>
    intro en w er hnm
    match hd with
    | (fn, ft, fdef) =>
      have hne : fn ≠ en := by
        intro hc
        apply hnm
        simp [hc]
      have hlk : List.lookup fn ((en, w) :: er) = List.lookup fn er := by
        simp only [List.lookup]
        have hb : (fn == en) = false := beq_eq_false_iff_ne.mpr hne
        rw [hb]
      have hnm2 : ¬ (en ∈ rest2.map Prod.fst) := by
        intro hc
        apply hnm
        simp only [List.map_cons, List.mem_cons]
        right
        exact hc
      simp only [encodeRFields, hlk, ih en w er hnm2]

theorem varintDec_small {x : Nat} (h : x < 128) (k : Nat) (hk : 1 ≤ k) (rest : List Nat) :
    varintDec k (x :: rest) = .ok (x, rest) := by
  obtain ⟨k2, rfl⟩ : ∃ k2, k = k2 + 1 := ⟨k - 1, by omega⟩
  simp [varintDec, h]

theorem contains_eq_false_of_allDistinct_head {x : String} {xs : List String}
    (h : allDistinct (x :: xs) = true) : ¬ (x ∈ xs) ∧ allDistinct xs = true := by
  simp only [allDistinct, Bool.and_eq_true, Bool.not_eq_true'] at h
  refine ⟨fun hc => ?_, h.2⟩
  have h2 := h.1
  have h3 : xs.contains x = true := List.elem_eq_true_of_mem hc
  rw [h2] at h3
  exact Bool.false_ne_true h3

mutual

theorem decB_encB (s : Schema) (v : Value) (hwf : wfB s = true) (hv : validB s v = true)
    (buf : List Nat) (henc : encodeB s v = .ok buf) (rest : List Nat) :
    decodeB s (buf ++ rest) = .ok (v, rest) :=
  match s, v, hwf, hv, henc with
  | .snull, .vnull, _, _, henc => by
    simp only [encodeB, Except.ok.injEq] at henc
    subst henc
    simp [decodeB]
  | .snull, .vbool _, _, _, henc => by simp [encodeB] at henc
  | .snull, .vlong _, _, _, henc => by simp [encodeB] at henc
  | .snull, .vstr _, _, _, henc => by simp [encodeB] at henc
  | .snull, .vmap _, _, _, henc => by simp [encodeB] at henc
  | .snull, .vrec _, _, _, henc => by simp [encodeB] at henc
  | .sboolean, .vbool b, _, _, henc => by
    simp only [encodeB, Except.ok.injEq] at henc
    subst henc
    cases b <;> simp [decodeB]
  | .sboolean, .vnull, _, _, henc => by simp [encodeB] at henc
  | .sboolean, .vlong _, _, _, henc => by simp [encodeB] at henc
  | .sboolean, .vstr _, _, _, henc => by simp [encodeB] at henc
  | .sboolean, .vmap _, _, _, henc => by simp [encodeB] at henc
  | .sboolean, .vrec _, _, _, henc => by simp [encodeB] at henc
  | .slong, .vlong n, _, hv, henc => by
    simp only [encodeB, Except.ok.injEq] at henc
    subst henc
    simp only [validB, Bool.and_eq_true, decide_eq_true_eq] at hv
    simp only [decodeB]
    rw [varintDec_varintEnc _ _ 10 (varintEnc_zigzag_le_ten hv.1 hv.2)]
    simp [Except.map, unzigzag_zigzag]
  | .slong, .vnull, _, _, henc => by simp [encodeB] at henc
  | .slong, .vbool _, _, _, henc => by simp [encodeB] at henc
  | .slong, .vstr _, _, _, henc => by simp [encodeB] at henc
  | .slong, .vmap _, _, _, henc => by simp [encodeB] at henc
  | .slong, .vrec _, _, _, henc => by simp [encodeB] at henc
  | .sstring, .vstr t, _, hv, henc => by
    simp only [encodeB, Except.ok.injEq] at henc
    subst henc
    simp only [validB, decide_eq_true_eq] at hv
    simp only [decodeB]
    rw [strDec_strEnc t hv]
    simp [Except.map]
  | .sstring, .vnull, _, _, henc => by simp [encodeB] at henc
  | .sstring, .vbool _, _, _, henc => by simp [encodeB] at henc
  | .sstring, .vlong _, _, _, henc => by simp [encodeB] at henc
  | .sstring, .vmap _, _, _, henc => by simp [encodeB] at henc
  | .sstring, .vrec _, _, _, henc => by simp [encodeB] at henc
  | .smap vs, .vmap l, hwf, hv, henc => by
    simp only [validB, Bool.and_eq_true, decide_eq_true_eq] at hv
    obtain ⟨⟨hsorted, hlen⟩, hve⟩ := hv
    simp only [wfB] at hwf
    have hsort := sortEntries_of_canonical hsorted
    simp only [encodeB, hsort] at henc
    cases hB : encodeMEntries vs l with
    | error e => rw [hB] at henc; simp [Except.map] at henc
    | ok body =>
      rw [hB] at henc
      simp only [Except.map, Except.ok.injEq] at henc
      by_cases hl : l.length = 0
      · rw [if_pos hl] at henc
        subst henc
        have hleq : l = [] := List.length_eq_zero.mp hl
        subst hleq
        have hem : ([0] : List Nat) ++ rest = 0 :: rest := rfl
        rw [hem]
        simp only [decodeB, List.length_cons]
        simp only [decodeMBlocks]
        rw [varintDec_small (by norm_num) 10 (by norm_num)]
        simp [Except.bind, unzigzag, Except.map]
      · rw [if_neg hl] at henc
        subst henc
        have h10 : (varintEnc (zigzag (l.length : Int))).length ≤ 10 :=
          varintEnc_zigzag_le_ten (by omega) (by exact_mod_cast hlen)
        have hassoc : (varintEnc (zigzag (l.length : Int)) ++ body ++ [0]) ++ rest
            = varintEnc (zigzag (l.length : Int)) ++ (body ++ (0 :: rest)) := by
          simp [List.append_assoc]
        rw [hassoc]
        simp only [decodeB]
        simp only [decodeMBlocks]
        rw [varintDec_varintEnc _ _ 10 h10]
        simp only [Except.bind, unzigzag_zigzag]
        rw [if_neg (by exact_mod_cast hl), if_neg (by omega)]
        have htn : ((l.length : Int)).toNat = l.length := rfl
        rw [htn]
        rw [decMI_encME vs l hwf hve body hB (0 :: rest)]
        simp only [Except.bind]
        have hpos : 0 < (varintEnc (zigzag (l.length : Int)) ++ (body ++ (0 :: rest))).length := by
          have hne2 := varintEnc_ne_nil (zigzag (l.length : Int))
          have h3 : 0 < (varintEnc (zigzag (l.length : Int))).length := List.length_pos.mpr hne2
          simp only [List.length_append]
          omega
        obtain ⟨g, hg⟩ : ∃ g,
            (varintEnc (zigzag (l.length : Int)) ++ (body ++ (0 :: rest))).length = g + 1 :=
          ⟨(varintEnc (zigzag (l.length : Int)) ++ (body ++ (0 :: rest))).length - 1, by omega⟩
        rw [hg]
        simp only [decodeMBlocks]
        rw [varintDec_small (by norm_num) 10 (by norm_num)]
        simp [Except.bind, unzigzag, Except.map]
  | .smap _, .vnull, _, _, henc => by simp [encodeB] at henc
  | .smap _, .vbool _, _, _, henc => by simp [encodeB] at henc
  | .smap _, .vlong _, _, _, henc => by simp [encodeB] at henc
  | .smap _, .vstr _, _, _, henc => by simp [encodeB] at henc
  | .smap _, .vrec _, _, _, henc => by simp [encodeB] at henc
  | .sunion bs, v, hwf, hv, henc => by
    simp only [validB] at hv
    split at hv
    case _ i br heq =>
      simp only [encodeB] at henc
      split at henc
      case _ heq2 => rw [heq] at heq2; simp at heq2
      case _ i2 br2 heq2 =>
        rw [heq] at heq2
        simp only [Option.some.injEq, Prod.mk.injEq] at heq2
        obtain ⟨rfl, rfl⟩ := heq2
        cases hpb : encodeB br v with
        | error e => rw [hpb] at henc; simp [Except.map] at henc
        | ok pb =>
          rw [hpb] at henc
          simp only [Except.map, Except.ok.injEq] at henc
          subst henc
          simp only [wfB, Bool.and_eq_true, decide_eq_true_eq] at hwf
          obtain ⟨⟨hnames, hblen⟩, hbrs⟩ := hwf
          have hbrwf := (wfBranches_mem hbrs (firstMatch_mem heq)).1
          have hilt := firstMatch_lt heq
          have h10 : (varintEnc (zigzag (i : Int))).length ≤ 10 := by
            apply varintEnc_zigzag_le_ten (by omega)
            exact_mod_cast lt_of_lt_of_le hilt (le_of_lt hblen)
          simp only [decodeB]
          rw [List.append_assoc]
          rw [varintDec_varintEnc _ _ 10 h10]
          simp only [Except.bind, unzigzag_zigzag]
          have hc : (0 : Int) ≤ ((i : Nat) : Int) ∧ (((i : Nat) : Int)).toNat < bs.length :=
            ⟨by omega, by simpa using hilt⟩
          rw [dif_pos hc]
          have hget := firstMatch_get heq
          obtain ⟨hlt2, hgeteq⟩ := List.get?_eq_some.mp hget
          rw [show bs.get ⟨(((i : Nat) : Int)).toNat, hc.2⟩ = br from hgeteq]
          have hszbr := List.sizeOf_lt_of_mem (firstMatch_mem heq)
          exact decB_encB br v hbrwf hv pb hpb rest
    case _ => exact absurd hv (by simp)
  | .srecord nm flds, .vrec entries, hwf, hv, henc => by
    simp only [encodeB] at henc
    simp only [validB] at hv
    simp only [wfB, Bool.and_eq_true] at hwf
    simp only [decodeB]
    rw [decRF_encRF flds entries hwf.1 hwf.2 hv buf henc rest]
    simp [Except.map]
  | .srecord _ _, .vnull, _, _, henc => by simp [encodeB] at henc
  | .srecord _ _, .vbool _, _, _, henc => by simp [encodeB] at henc
  | .srecord _ _, .vlong _, _, _, henc => by simp [encodeB] at henc
  | .srecord _ _, .vstr _, _, _, henc => by simp [encodeB] at henc
  | .srecord _ _, .vmap _, _, _, henc => by simp [encodeB] at henc
termination_by (3 * sizeOf s, 0)
decreasing_by
  all_goals simp_wf
  all_goals (apply Prod.Lex.left; omega)

theorem decMI_encME (vs : Schema) (es : List (String × Value)) (hwf : wfB vs = true)
    (hv : validMEntries vs es = true) (buf : List Nat) (henc : encodeMEntries vs es = .ok buf)
    (rest : List Nat) : decodeMItems vs es.length (buf ++ rest) = .ok (es, rest) := by
  match es with
  | [] =>
    simp only [encodeMEntries, Except.ok.injEq] at henc
    subst henc
    simp [decodeMItems]
  | (k, w) :: es2 =>
    simp only [validMEntries, Bool.and_eq_true, decide_eq_true_eq] at hv
    obtain ⟨⟨hk, hvw⟩, hve2⟩ := hv
    simp only [encodeMEntries] at henc
    cases hw : encodeB vs w with
    | error e => rw [hw] at henc; simp [Except.bind] at henc
    | ok wb =>
      rw [hw] at henc
      simp only [Except.bind] at henc
      cases hr : encodeMEntries vs es2 with
      | error e => rw [hr] at henc; simp [Except.map] at henc
      | ok restb =>
        rw [hr] at henc
        simp only [Except.map, Except.ok.injEq] at henc
        subst henc
        simp only [List.length_cons]
        simp only [decodeMItems]
        have hassoc : (strEnc k ++ wb ++ restb) ++ rest
            = strEnc k ++ (wb ++ (restb ++ rest)) := by
          simp [List.append_assoc]
        rw [hassoc]
        rw [strDec_strEnc k hk]
        simp only [Except.bind]
        rw [decB_encB vs w hwf hvw wb hw (restb ++ rest)]
        simp only [Except.bind]
        rw [decMI_encME vs es2 hwf hve2 restb hr rest]
        simp [Except.map]
termination_by (3 * sizeOf vs + 1, sizeOf es)
decreasing_by
  all_goals simp_wf
  all_goals try (apply Prod.Lex.left; omega)
  all_goals (apply Prod.Lex.right; omega)

theorem decRF_encRF (flds : List (String × Schema × Option Value)) (entries : List (String × Value))
    (hnd : allDistinct (flds.map Prod.fst) = true) (hwfl : wfFieldList flds = true)
    (hv : validRFields flds entries = true) (buf : List Nat)
    (henc : encodeRFields flds entries = .ok buf) (rest : List Nat) :
    decodeRFields flds (buf ++ rest) = .ok (entries, rest) := by
  match flds, entries with
  | [], [] =>
    simp only [encodeRFields, Except.ok.injEq] at henc
    subst henc
    simp [decodeRFields]
  | [], e :: er => simp [validRFields] at hv
  | (fn, ft, fdef) :: fr, [] => simp [validRFields] at hv
  | (fn, ft, fdef) :: fr, (en, w) :: er =>
    simp only [validRFields, Bool.and_eq_true] at hv
    obtain ⟨⟨hbeq, hvw⟩, hvr⟩ := hv
    have hfe : fn = en := eq_of_beq hbeq
    subst hfe
    simp only [List.map_cons] at hnd
    obtain ⟨hnotmem, hnd2⟩ := contains_eq_false_of_allDistinct_head hnd
    simp only [wfFieldList, Bool.and_eq_true] at hwfl
    obtain ⟨hwft, hwfl2⟩ := hwfl
    simp only [encodeRFields] at henc
    have hlk : List.lookup fn ((fn, w) :: er) = some w := by simp [List.lookup]
    rw [hlk] at henc
    simp only [fieldValue, Except.bind] at henc
    cases hfw : encodeB ft w with
    | error e => rw [hfw] at henc; simp [Except.bind] at henc
    | ok fb =>
      rw [hfw] at henc
      simp only [Except.bind] at henc
      rw [encodeRFields_cons_irrel fr fn w er hnotmem] at henc
      cases hrr : encodeRFields fr er with
      | error e => rw [hrr] at henc; simp [Except.map] at henc
      | ok restb =>
        rw [hrr] at henc
        simp only [Except.map, Except.ok.injEq] at henc
        subst henc
        simp only [decodeRFields]
        rw [List.append_assoc]
        rw [decB_encB ft w hwft hvw fb hfw (restb ++ rest)]
        simp only [Except.bind]
        rw [decRF_encRF fr er hnd2 hwfl2 hvr restb hrr rest]
        simp [Except.map]
termination_by (3 * sizeOf flds + 2, 0)
decreasing_by
  all_goals simp_wf
  all_goals (apply Prod.Lex.left; omega)

end

mutual

theorem encB_total (s : Schema) (v : Value) (hwf : wfB s = true) (hv : validB s v = true) :
    ∃ buf, encodeB s v = .ok buf :=
  match s, v, hwf, hv with
  | .snull, .vnull, _, _ => ⟨[], by simp [encodeB]⟩
  | .snull, .vbool _, _, hv => by simp [validB] at hv
  | .snull, .vlong _, _, hv => by simp [validB] at hv
  | .snull, .vstr _, _, hv => by simp [validB] at hv
  | .snull, .vmap _, _, hv => by simp [validB] at hv
  | .snull, .vrec _, _, hv => by simp [validB] at hv
  | .sboolean, .vbool b, _, _ => ⟨[if b then 1 else 0], by simp [encodeB]⟩
  | .sboolean, .vnull, _, hv => by simp [validB] at hv
  | .sboolean, .vlong _, _, hv => by simp [validB] at hv
  | .sboolean, .vstr _, _, hv => by simp [validB] at hv
  | .sboolean, .vmap _, _, hv => by simp [validB] at hv
  | .sboolean, .vrec _, _, hv => by simp [validB] at hv
  | .slong, .vlong n, _, _ => ⟨varintEnc (zigzag n), by simp [encodeB]⟩
  | .slong, .vnull, _, hv => by simp [validB] at hv
  | .slong, .vbool _, _, hv => by simp [validB] at hv
  | .slong, .vstr _, _, hv => by simp [validB] at hv
  | .slong, .vmap _, _, hv => by simp [validB] at hv
  | .slong, .vrec _, _, hv => by simp [validB] at hv
  | .sstring, .vstr t, _, _ => ⟨strEnc t, by simp [encodeB]⟩
  | .sstring, .vnull, _, hv => by simp [validB] at hv
  | .sstring, .vbool _, _, hv => by simp [validB] at hv
  | .sstring, .vlong _, _, hv => by simp [validB] at hv
  | .sstring, .vmap _, _, hv => by simp [validB] at hv
  | .sstring, .vrec _, _, hv => by simp [validB] at hv
  | .smap vs, .vmap l, hwf, hv => by
    simp only [validB, Bool.and_eq_true, decide_eq_true_eq] at hv
    obtain ⟨⟨hsorted, hlen⟩, hve⟩ := hv
    simp only [wfB] at hwf
    have hsort := sortEntries_of_canonical hsorted
    obtain ⟨body, hB⟩ := encME_total vs l hwf hve
    refine ⟨if l.length = 0 then [0]
      else varintEnc (zigzag (l.length : Int)) ++ body ++ [0], ?_⟩
    simp only [encodeB, hsort, hB, Except.map]
  | .smap _, .vnull, _, hv => by simp [validB] at hv
  | .smap _, .vbool _, _, hv => by simp [validB] at hv
  | .smap _, .vlong _, _, hv => by simp [validB] at hv
  | .smap _, .vstr _, _, hv => by simp [validB] at hv
  | .smap _, .vrec _, _, hv => by simp [validB] at hv
  | .sunion bs, v, hwf, hv => by
    simp only [validB] at hv
    split at hv
    case _ i br heq =>
      simp only [wfB, Bool.and_eq_true, decide_eq_true_eq] at hwf
      have hbrwf := (wfBranches_mem hwf.2 (firstMatch_mem heq)).1
      have hszbr := List.sizeOf_lt_of_mem (firstMatch_mem heq)
      obtain ⟨pb, hpb⟩ := encB_total br v hbrwf hv
      refine ⟨varintEnc (zigzag (i : Int)) ++ pb, ?_⟩
      simp only [encodeB]
      split
      case _ heq2 => rw [heq] at heq2; simp at heq2
      case _ i2 br2 heq2 =>
        rw [heq] at heq2
        simp only [Option.some.injEq, Prod.mk.injEq] at heq2
        obtain ⟨rfl, rfl⟩ := heq2
        rw [hpb]
        simp [Except.map]
    case _ => exact absurd hv (by simp)
  | .srecord nm flds, .vrec entries, hwf, hv => by
    simp only [wfB, Bool.and_eq_true] at hwf
    simp only [validB] at hv
    obtain ⟨buf, henc⟩ := encRF_total flds entries hwf.1 hwf.2 hv
    exact ⟨buf, by simpa [encodeB] using henc⟩
  | .srecord _ _, .vnull, _, hv => by simp [validB] at hv
  | .srecord _ _, .vbool _, _, hv => by simp [validB] at hv
  | .srecord _ _, .vlong _, _, hv => by simp [validB] at hv
  | .srecord _ _, .vstr _, _, hv => by simp [validB] at hv
  | .srecord _ _, .vmap _, _, hv => by simp [validB] at hv
termination_by (3 * sizeOf s, 0)
decreasing_by
  all_goals simp_wf
  all_goals (apply Prod.Lex.left; omega)

theorem encME_total (vs : Schema) (es : List (String × Value)) (hwf : wfB vs = true)
    (hv : validMEntries vs es = true) : ∃ body, encodeMEntries vs es = .ok body :=
  match es, hv with
  | [], _ => ⟨[], by simp [encodeMEntries]⟩
  | (k, w) :: es2, hv => by
    simp only [validMEntries, Bool.and_eq_true, decide_eq_true_eq] at hv
    obtain ⟨⟨hk, hvw⟩, hve2⟩ := hv
    obtain ⟨wb, hwb⟩ := encB_total vs w hwf hvw
    obtain ⟨restb, hrb⟩ := encME_total vs es2 hwf hve2
    refine ⟨strEnc k ++ wb ++ restb, ?_⟩
    simp only [encodeMEntries, hwb, hrb, Except.bind, Except.map]
termination_by (3 * sizeOf vs + 1, sizeOf es)
decreasing_by
  all_goals simp_wf
  all_goals try (apply Prod.Lex.left; omega)
  all_goals (apply Prod.Lex.right; omega)

theorem encRF_total (flds : List (String × Schema × Option Value))
    (entries : List (String × Value)) (hnd : allDistinct (flds.map Prod.fst) = true)
    (hwfl : wfFieldList flds = true) (hv : validRFields flds entries = true) :
    ∃ buf, encodeRFields flds entries = .ok buf :=
  match flds, entries, hv with
  | [], [], _ => ⟨[], by simp [encodeRFields]⟩
  | [], _ :: _, hv => by simp [validRFields] at hv
  | (fn, ft, fdef) :: fr, [], hv => by simp [validRFields] at hv
  | (fn, ft, fdef) :: fr, (en, w) :: er, hv => by
    simp only [validRFields, Bool.and_eq_true] at hv
    obtain ⟨⟨hbeq, hvw⟩, hvr⟩ := hv
    have hfe : fn = en := eq_of_beq hbeq
    subst hfe
    simp only [List.map_cons] at hnd
    obtain ⟨hnotmem, hnd2⟩ := contains_eq_false_of_allDistinct_head hnd
    simp only [wfFieldList, Bool.and_eq_true] at hwfl
    obtain ⟨hwft, hwfl2⟩ := hwfl
    obtain ⟨fb, hfb⟩ := encB_total ft w hwft hvw
    obtain ⟨restb, hrb⟩ := encRF_total fr er hnd2 hwfl2 hvr
    refine ⟨fb ++ restb, ?_⟩
    simp only [encodeRFields]
    have hlk : List.lookup fn ((fn, w) :: er) = some w := by simp [List.lookup]
    rw [hlk]
    simp only [fieldValue, Except.bind]
    rw [hfb]
    simp only [Except.bind]
    rw [encodeRFields_cons_irrel fr fn w er hnotmem, hrb]
    simp [Except.map]
termination_by (3 * sizeOf flds + 2, 0)
decreasing_by
  all_goals simp_wf
  all_goals (apply Prod.Lex.left; omega)

end

theorem varintDec_nil (k : Nat) : varintDec k [] = .error .truncated := by
  cases k <;> rfl

theorem list_split_single {q2 t : List Nat} (h : q2 ++ t = [0]) (ht : t ≠ []) :
    q2 = [] ∧ t = [0] := by
  cases q2 with
  | nil => exact ⟨rfl, by simpa using h⟩
  | cons a q3 =>
    exfalso
    have hlen := congrArg List.length h
    simp only [List.length_append, List.length_cons, List.length_nil] at hlen
    have ht2 : 0 < t.length := List.length_pos.mpr ht
    omega

theorem run_of_complete_and_trunc {α : Type} (dec : List Nat → Except DecErr (α × List Nat))
    (res : α) (wb : List Nat)
    (hA : ∀ rest, dec (wb ++ rest) = .ok (res, rest))
    (hB : ∀ p t, p ++ t = wb → t ≠ [] → dec p = .error .truncated) :
    ∀ q t2 rest2, q ++ t2 = wb ++ rest2 → t2 ≠ [] →
      (∃ q2, dec q = .ok (res, q2) ∧ q2 ++ t2 = rest2) ∨ dec q = .error .truncated := by
  intro q t2 rest2 hq ht2
  rcases List.append_eq_append_iff.mp hq with ⟨a, hwb, hts⟩ | ⟨c, hqe, hre⟩
  · by_cases ha : a = []
    · subst ha
      rw [List.append_nil] at hwb
      subst hwb
      left
      refine ⟨[], ?_, ?_⟩
      · have := hA []
        rwa [List.append_nil] at this
      · rw [List.nil_append]
        rw [List.nil_append] at hts
        exact hts
    · right
      exact hB q a hwb.symm ha
  · subst hqe
    left
    exact ⟨c, hA c, hre.symm⟩

theorem strDec_run (k : String) (hk : k.length < 2 ^ 63) :
    ∀ q t2 rest2, q ++ t2 = strEnc k ++ rest2 → t2 ≠ [] →
      (∃ q2, strDec q = .ok (k, q2) ∧ q2 ++ t2 = rest2) ∨ strDec q = .error .truncated :=
  run_of_complete_and_trunc strDec k (strEnc k)
    (fun rest => strDec_strEnc k hk rest)
    (fun p t hpt ht => strDec_of_proper k hk p t hpt ht)

theorem varintDec_run (u : Nat) (h10 : (varintEnc u).length ≤ 10) :
    ∀ q t2 rest2, q ++ t2 = varintEnc u ++ rest2 → t2 ≠ [] →
      (∃ q2, varintDec 10 q = .ok (u, q2) ∧ q2 ++ t2 = rest2) ∨
      varintDec 10 q = .error .truncated :=
  run_of_complete_and_trunc (varintDec 10) u (varintEnc u)
    (fun rest => varintDec_varintEnc u rest 10 h10)
    (fun p t hpt ht => by
      apply varintDec_of_proper u p t 10 hpt ht
      have hlen := congrArg List.length hpt
      simp only [List.length_append] at hlen
      have ht2 : 0 < t.length := List.length_pos.mpr ht
      omega)

mutual

theorem decB_trunc (s : Schema) (v : Value) (hwf : wfB s = true) (hv : validB s v = true)
    (buf : List Nat) (henc : encodeB s v = .ok buf) (p t : List Nat)
    (hpt : p ++ t = buf) (ht : t ≠ []) : decodeB s p = .error .truncated :=
  match s, v, hwf, hv, henc with
  | .snull, .vnull, _, _, henc => by
    simp only [encodeB, Except.ok.injEq] at henc
    subst henc
    exact absurd (List.append_eq_nil.mp hpt).2 ht
  | .snull, .vbool _, _, _, henc => by simp [encodeB] at henc
  | .snull, .vlong _, _, _, henc => by simp [encodeB] at henc
  | .snull, .vstr _, _, _, henc => by simp [encodeB] at henc
  | .snull, .vmap _, _, _, henc => by simp [encodeB] at henc
  | .snull, .vrec _, _, _, henc => by simp [encodeB] at henc
  | .sboolean, .vbool b, _, _, henc => by
    simp only [encodeB, Except.ok.injEq] at henc
    subst henc
    have hlen := congrArg List.length hpt
    simp only [List.length_append, List.length_cons, List.length_nil] at hlen
    have ht2 : 0 < t.length := List.length_pos.mpr ht
    have hpe : p = [] := List.length_eq_zero.mp (by omega)
    subst hpe
    simp [decodeB]
  | .sboolean, .vnull, _, _, henc => by simp [encodeB] at henc
  | .sboolean, .vlong _, _, _, henc => by simp [encodeB] at henc
  | .sboolean, .vstr _, _, _, henc => by simp [encodeB] at henc
  | .sboolean, .vmap _, _, _, henc => by simp [encodeB] at henc
  | .sboolean, .vrec _, _, _, henc => by simp [encodeB] at henc
  | .slong, .vlong n, _, hv, henc => by
    simp only [encodeB, Except.ok.injEq] at henc
    subst henc
    simp only [validB, Bool.and_eq_true, decide_eq_true_eq] at hv
    have h10 := varintEnc_zigzag_le_ten hv.1 hv.2
    have hplen : p.length < 10 := by
      have hlen := congrArg List.length hpt
      simp only [List.length_append] at hlen
      have ht2 : 0 < t.length := List.length_pos.mpr ht
      omega
    simp only [decodeB]
    rw [varintDec_of_proper (zigzag n) p t 10 hpt ht hplen]
    simp [Except.map]
  | .slong, .vnull, _, _, henc => by simp [encodeB] at henc
  | .slong, .vbool _, _, _, henc => by simp [encodeB] at henc
  | .slong, .vstr _, _, _, henc => by simp [encodeB] at henc
  | .slong, .vmap _, _, _, henc => by simp [encodeB] at henc
  | .slong, .vrec _, _, _, henc => by simp [encodeB] at henc
  | .sstring, .vstr t0, _, hv, henc => by
    simp only [encodeB, Except.ok.injEq] at henc
    subst henc
    simp only [validB, decide_eq_true_eq] at hv
    simp only [decodeB]
    rw [strDec_of_proper t0 hv p t hpt ht]
    simp [Except.map]
  | .sstring, .vnull, _, _, henc => by simp [encodeB] at henc
  | .sstring, .vbool _, _, _, henc => by simp [encodeB] at henc
  | .sstring, .vlong _, _, _, henc => by simp [encodeB] at henc
  | .sstring, .vmap _, _, _, henc => by simp [encodeB] at henc
  | .sstring, .vrec _, _, _, henc => by simp [encodeB] at henc
  | .smap vs, .vmap l, hwf, hv, henc => by
    simp only [validB, Bool.and_eq_true, decide_eq_true_eq] at hv
    obtain ⟨⟨hsorted, hlen⟩, hve⟩ := hv
    simp only [wfB] at hwf
    have hsort := sortEntries_of_canonical hsorted
    simp only [encodeB, hsort] at henc
    cases hB : encodeMEntries vs l with
    | error e => rw [hB] at henc; simp [Except.map] at henc
    | ok body =>
      rw [hB] at henc
      simp only [Except.map, Except.ok.injEq] at henc
      by_cases hl : l.length = 0
      · rw [if_pos hl] at henc
        subst henc
        obtain ⟨hpe, hte⟩ := list_split_single hpt ht
        subst hpe
        simp only [decodeB, List.length_nil]
        simp only [decodeMBlocks]
        rw [varintDec_nil]
        simp [Except.bind, Except.map]
      · rw [if_neg hl] at henc
        subst henc
        have h10 : (varintEnc (zigzag (l.length : Int))).length ≤ 10 :=
          varintEnc_zigzag_le_ten (by omega) (by exact_mod_cast hlen)
        have hpt2 : p ++ t = varintEnc (zigzag (l.length : Int)) ++ (body ++ [0]) := by
          simpa [List.append_assoc] using hpt
        simp only [decodeB]
        simp only [decodeMBlocks]
        rcases varintDec_run (zigzag (l.length : Int)) h10 p t (body ++ [0]) hpt2 ht with
          ⟨q, hdec, hq⟩ | htr
        · rw [hdec]
          simp only [Except.bind, unzigzag_zigzag]
          rw [if_neg (by exact_mod_cast hl), if_neg (by omega)]
          have htn : ((l.length : Int)).toNat = l.length := rfl
          rw [htn]
          rcases run_of_complete_and_trunc (decodeMItems vs l.length) l body
              (fun rest => decMI_encME vs l hwf hve body hB rest)
              (fun p2 t2 h1 h2 => decMI_trunc vs l hwf hve body hB p2 t2 h1 h2)
              q t [0] hq ht with ⟨q2, hdec2, hq2⟩ | htr2
          · rw [hdec2]
            simp only [Except.bind]
            obtain ⟨hq2e, hte⟩ := list_split_single hq2 ht
            subst hq2e
            have hppos : 0 < p.length := by
              by_contra hc
              have hpe : p = [] := List.length_eq_zero.mp (by omega)
              subst hpe
              rw [varintDec_nil] at hdec
              exact absurd hdec (by simp)
            obtain ⟨g, hg⟩ : ∃ g, p.length = g + 1 := ⟨p.length - 1, by omega⟩
            rw [hg]
            simp only [decodeMBlocks]
            rw [varintDec_nil]
            simp [Except.bind, Except.map]
          · rw [htr2]
            simp [Except.bind, Except.map]
        · rw [htr]
          simp [Except.bind, Except.map]
  | .smap _, .vnull, _, _, henc => by simp [encodeB] at henc
  | .smap _, .vbool _, _, _, henc => by simp [encodeB] at henc
  | .smap _, .vlong _, _, _, henc => by simp [encodeB] at henc
  | .smap _, .vstr _, _, _, henc => by simp [encodeB] at henc
  | .smap _, .vrec _, _, _, henc => by simp [encodeB] at henc
  | .sunion bs, v, hwf, hv, henc => by
    simp only [validB] at hv
    split at hv
    case _ i br heq =>
      simp only [encodeB] at henc
      split at henc
      case _ heq2 => rw [heq] at heq2; simp at heq2
      case _ i2 br2 heq2 =>
        rw [heq] at heq2
        simp only [Option.some.injEq, Prod.mk.injEq] at heq2
        obtain ⟨rfl, rfl⟩ := heq2
        cases hpb : encodeB br v with
        | error e => rw [hpb] at henc; simp [Except.map] at henc
        | ok pb =>
          rw [hpb] at henc
          simp only [Except.map, Except.ok.injEq] at henc
          subst henc
          simp only [wfB, Bool.and_eq_true, decide_eq_true_eq] at hwf
          obtain ⟨⟨hnames, hblen⟩, hbrs⟩ := hwf
          have hbrwf := (wfBranches_mem hbrs (firstMatch_mem heq)).1
          have hilt := firstMatch_lt heq
          have h10 : (varintEnc (zigzag (i : Int))).length ≤ 10 := by
            apply varintEnc_zigzag_le_ten (by omega)
            exact_mod_cast lt_of_lt_of_le hilt (le_of_lt hblen)
          simp only [decodeB]
          rcases varintDec_run (zigzag (i : Int)) h10 p t pb hpt ht with ⟨q2, hdec, hq2⟩ | htr
          · rw [hdec]
            simp only [Except.bind, unzigzag_zigzag]
            have hc : (0 : Int) ≤ ((i : Nat) : Int) ∧ (((i : Nat) : Int)).toNat < bs.length :=
              ⟨by omega, by simpa using hilt⟩
            rw [dif_pos hc]
            obtain ⟨hlt2, hgeteq⟩ := List.get?_eq_some.mp (firstMatch_get heq)
            rw [show bs.get ⟨(((i : Nat) : Int)).toNat, hc.2⟩ = br from hgeteq]
            have hszbr := List.sizeOf_lt_of_mem (firstMatch_mem heq)
            exact decB_trunc br v hbrwf hv pb hpb q2 t hq2 ht
          · rw [htr]
            simp [Except.bind]
    case _ => exact absurd hv (by simp)
  | .srecord nm flds, .vrec entries, hwf, hv, henc => by
    simp only [encodeB] at henc
    simp only [validB] at hv
    simp only [wfB, Bool.and_eq_true] at hwf
    simp only [decodeB]
    rw [decRF_trunc flds entries hwf.1 hwf.2 hv buf henc p t hpt ht]
    simp [Except.map]
  | .srecord _ _, .vnull, _, _, henc => by simp [encodeB] at henc
  | .srecord _ _, .vbool _, _, _, henc => by simp [encodeB] at henc
  | .srecord _ _, .vlong _, _, _, henc => by simp [encodeB] at henc
  | .srecord _ _, .vstr _, _, _, henc => by simp [encodeB] at henc
  | .srecord _ _, .vmap _, _, _, henc => by simp [encodeB] at henc
termination_by (3 * sizeOf s, 0)
decreasing_by
  all_goals simp_wf
  all_goals (apply Prod.Lex.left; omega)

theorem decMI_trunc (vs : Schema) (es : List (String × Value)) (hwf : wfB vs = true)
    (hv : validMEntries vs es = true) (buf : List Nat)
    (henc : encodeMEntries vs es = .ok buf) (p t : List Nat)
    (hpt : p ++ t = buf) (ht : t ≠ []) : decodeMItems vs es.length p = .error .truncated :=
  match es, hv, henc with
  | [], _, henc => by
    simp only [encodeMEntries, Except.ok.injEq] at henc
    subst henc
    exact absurd (List.append_eq_nil.mp hpt).2 ht
  | (k, w) :: es2, hv, henc => by
    simp only [validMEntries, Bool.and_eq_true, decide_eq_true_eq] at hv
    obtain ⟨⟨hk, hvw⟩, hve2⟩ := hv
    simp only [encodeMEntries] at henc
    cases hwb : encodeB vs w with
    | error e => rw [hwb] at henc; simp [Except.bind] at henc
    | ok wb =>
      rw [hwb] at henc
      simp only [Except.bind] at henc
      cases hrb : encodeMEntries vs es2 with
      | error e => rw [hrb] at henc; simp [Except.map] at henc
      | ok restb =>
        rw [hrb] at henc
        simp only [Except.map, Except.ok.injEq] at henc
        subst henc
        have hpt2 : p ++ t = strEnc k ++ (wb ++ restb) := by
          simpa [List.append_assoc] using hpt
        simp only [List.length_cons, decodeMItems]
        rcases strDec_run k hk p t (wb ++ restb) hpt2 ht with ⟨p2, hdec, hp2⟩ | htr
        · rw [hdec]
          simp only [Except.bind]
          rcases run_of_complete_and_trunc (decodeB vs) w wb
              (fun rest => decB_encB vs w hwf hvw wb hwb rest)
              (fun p3 t3 h1 h2 => decB_trunc vs w hwf hvw wb hwb p3 t3 h1 h2)
              p2 t restb hp2 ht with ⟨p3, hdec2, hp3⟩ | htr2
          · rw [hdec2]
            simp only [Except.bind]
            rw [decMI_trunc vs es2 hwf hve2 restb hrb p3 t hp3 ht]
            simp [Except.map]
          · rw [htr2]
            try simp [Except.bind, Except.map]
        · rw [htr]
          try simp [Except.bind]
termination_by (3 * sizeOf vs + 1, sizeOf es)
decreasing_by
  all_goals simp_wf
  all_goals try (apply Prod.Lex.left; omega)
  all_goals (apply Prod.Lex.right; omega)

theorem decRF_trunc (flds : List (String × Schema × Option Value))
    (entries : List (String × Value)) (hnd : allDistinct (flds.map Prod.fst) = true)
    (hwfl : wfFieldList flds = true) (hv : validRFields flds entries = true)
    (buf : List Nat) (henc : encodeRFields flds entries = .ok buf) (p t : List Nat)
    (hpt : p ++ t = buf) (ht : t ≠ []) : decodeRFields flds p = .error .truncated :=
  match flds, entries, hv, henc with
  | [], [], _, henc => by
    simp only [encodeRFields, Except.ok.injEq] at henc
    subst henc
    exact absurd (List.append_eq_nil.mp hpt).2 ht
  | [], _ :: _, hv, _ => by simp [validRFields] at hv
  | (fn, ft, fdef) :: fr, [], hv, _ => by simp [validRFields] at hv
  | (fn, ft, fdef) :: fr, (en, w) :: er, hv, henc => by
    simp only [validRFields, Bool.and_eq_true] at hv
    obtain ⟨⟨hbeq, hvw⟩, hvr⟩ := hv
    have hfe : fn = en := eq_of_beq hbeq
    subst hfe
    simp only [List.map_cons] at hnd
    obtain ⟨hnotmem, hnd2⟩ := contains_eq_false_of_allDistinct_head hnd
    simp only [wfFieldList, Bool.and_eq_true] at hwfl
    obtain ⟨hwft, hwfl2⟩ := hwfl
    simp only [encodeRFields] at henc
    have hlk : List.lookup fn ((fn, w) :: er) = some w := by simp [List.lookup]
    rw [hlk] at henc
    simp only [fieldValue, Except.bind] at henc
    cases hfb : encodeB ft w with
    | error e => rw [hfb] at henc; simp [Except.bind] at henc
    | ok fb =>
      rw [hfb] at henc
      simp only [Except.bind] at henc
      rw [encodeRFields_cons_irrel fr fn w er hnotmem] at henc
      cases hrr : encodeRFields fr er with
      | error e => rw [hrr] at henc; simp [Except.map] at henc
      | ok restb =>
        rw [hrr] at henc
        simp only [Except.map, Except.ok.injEq] at henc
        subst henc
        simp only [decodeRFields]
        rcases run_of_complete_and_trunc (decodeB ft) w fb
            (fun rest => decB_encB ft w hwft hvw fb hfb rest)
            (fun p3 t3 h1 h2 => decB_trunc ft w hwft hvw fb hfb p3 t3 h1 h2)
            p t restb hpt ht with ⟨p2, hdec, hp2⟩ | htr
        · rw [hdec]
          simp only [Except.bind]
          rw [decRF_trunc fr er hnd2 hwfl2 hvr restb hrr p2 t hp2 ht]
          simp [Except.map]
        · rw [htr]
          simp [Except.bind]
termination_by (3 * sizeOf flds + 2, 0)
decreasing_by
  all_goals simp_wf
  all_goals (apply Prod.Lex.left; omega)

end

theorem suffix_trans {f1 r1 b f2 rest : List Nat} (h1 : f1 ++ r1 = b)
    (h2 : f2 ++ rest = r1) : (f1 ++ f2) ++ rest = b := by
  rw [List.append_assoc, h2, h1]

theorem varintDec_sfx : ∀ (k : Nat) (b : List Nat) (u : Nat) (rest : List Nat),
    varintDec k b = .ok (u, rest) → ∃ front, front ++ rest = b := by
  intro k
  induction k with
  | zero =>
    intro b u rest h
    match b with
    | [] => simp [varintDec] at h
    | x :: r => simp [varintDec] at h
  | succ k ih =>
    intro b u rest h
    match b with
    | [] => simp [varintDec] at h
    | x :: r =>
      simp only [varintDec] at h
      by_cases hx : x < 128
      · rw [if_pos hx] at h
        simp only [Except.ok.injEq, Prod.mk.injEq] at h
        exact ⟨[x], by simp [← h.2]⟩
      · rw [if_neg hx] at h
        cases hrec : varintDec k r with
        | error e => rw [hrec] at h; simp at h
        | ok vr =>
          rw [hrec] at h
          simp only [Except.ok.injEq, Prod.mk.injEq] at h
          obtain ⟨f2, hf2⟩ := ih r vr.1 vr.2 (by rw [hrec])
          refine ⟨x :: f2, ?_⟩
          rw [h.2] at hf2
          rw [List.cons_append, hf2]

theorem strDec_sfx (b : List Nat) (s : String) (rest : List Nat)
    (h : strDec b = .ok (s, rest)) : ∃ front, front ++ rest = b := by
  unfold strDec at h
  cases hvd : varintDec 10 b with
  | error e => rw [hvd] at h; simp at h
  | ok ur =>
    rw [hvd] at h
    simp only at h
    by_cases hneg : unzigzag ur.1 < 0
    · rw [if_pos hneg] at h; simp at h
    · rw [if_neg hneg] at h
      by_cases htr : ur.2.length < (unzigzag ur.1).toNat
      · rw [if_pos htr] at h; simp at h
      · rw [if_neg htr] at h
        cases hc : charsFromNats (ur.2.take (unzigzag ur.1).toNat) with
        | none => rw [hc] at h; simp at h
        | some cs =>
          rw [hc] at h
          simp only [Except.ok.injEq, Prod.mk.injEq] at h
          obtain ⟨f1, hf1⟩ := varintDec_sfx 10 b ur.1 ur.2 (by rw [hvd])
          refine ⟨f1 ++ ur.2.take (unzigzag ur.1).toNat, ?_⟩
          apply suffix_trans hf1
          rw [← h.2]
          exact List.take_append_drop _ _

mutual

theorem decB_sfx (s : Schema) (b : List Nat) (v : Value) (rest : List Nat)
    (h : decodeB s b = .ok (v, rest)) : ∃ front, front ++ rest = b :=
  match s with
  | .snull => by
    simp only [decodeB, Except.ok.injEq, Prod.mk.injEq] at h
    exact ⟨[], by simp [h.2]⟩
  | .sboolean => by
    match b with
    | [] => simp [decodeB] at h
    | x :: r =>
      simp only [decodeB] at h
      split at h
      · simp only [Except.ok.injEq, Prod.mk.injEq] at h
        exact ⟨[x], by simp [← h.2]⟩
      · split at h
        · simp only [Except.ok.injEq, Prod.mk.injEq] at h
          exact ⟨[x], by simp [← h.2]⟩
        · simp at h
  | .slong => by
    simp only [decodeB] at h
    cases hvd : varintDec 10 b with
    | error e => rw [hvd] at h; simp [Except.map] at h
    | ok ur =>
      rw [hvd] at h
      simp only [Except.map, Except.ok.injEq, Prod.mk.injEq] at h
      obtain ⟨f1, hf1⟩ := varintDec_sfx 10 b ur.1 ur.2 (by rw [hvd])
      exact ⟨f1, by rw [← h.2]; exact hf1⟩
  | .sstring => by
    simp only [decodeB] at h
    cases hsd : strDec b with
    | error e => rw [hsd] at h; simp [Except.map] at h
    | ok sr =>
      rw [hsd] at h
      simp only [Except.map, Except.ok.injEq, Prod.mk.injEq] at h
      obtain ⟨f1, hf1⟩ := strDec_sfx b sr.1 sr.2 (by rw [hsd])
      exact ⟨f1, by rw [← h.2]; exact hf1⟩
  | .smap vs => by
    simp only [decodeB] at h
    cases hbl : decodeMBlocks vs (b.length + 1) b with
    | error e => rw [hbl] at h; simp [Except.map] at h
    | ok esr =>
      rw [hbl] at h
      simp only [Except.map, Except.ok.injEq, Prod.mk.injEq] at h
      obtain ⟨f1, hf1⟩ := decMB_sfx vs (b.length + 1) b esr.1 esr.2 (by rw [hbl])
      exact ⟨f1, by rw [← h.2]; exact hf1⟩
  | .sunion bs => by
    simp only [decodeB] at h
    cases hvd : varintDec 10 b with
    | error e => rw [hvd] at h; simp [Except.bind] at h
    | ok ur =>
      rw [hvd] at h
      simp only [Except.bind] at h
      split at h
      case _ hcond =>
        obtain ⟨f1, hf1⟩ := varintDec_sfx 10 b ur.1 ur.2 (by rw [hvd])
        have hsz := List.sizeOf_lt_of_mem (List.getElem_mem hcond.2)
        obtain ⟨f2, hf2⟩ := decB_sfx (bs.get ⟨(unzigzag ur.1).toNat, hcond.2⟩) ur.2 v rest h
        exact ⟨f1 ++ f2, suffix_trans hf1 hf2⟩
      case _ => simp at h
  | .srecord nm flds => by
    simp only [decodeB] at h
    cases hrf : decodeRFields flds b with
    | error e => rw [hrf] at h; simp [Except.map] at h
    | ok esr =>
      rw [hrf] at h
      simp only [Except.map, Except.ok.injEq, Prod.mk.injEq] at h
      obtain ⟨f1, hf1⟩ := decRF_sfx flds b esr.1 esr.2 (by rw [hrf])
      exact ⟨f1, by rw [← h.2]; exact hf1⟩
termination_by (3 * sizeOf s, 0, 0)
decreasing_by
  all_goals simp_wf
  all_goals (apply Prod.Lex.left; omega)

theorem decMB_sfx (vs : Schema) (f : Nat) (b : List Nat) (es : List (String × Value))
    (rest : List Nat) (h : decodeMBlocks vs f b = .ok (es, rest)) :
    ∃ front, front ++ rest = b :=
  match f with
  | 0 => by simp [decodeMBlocks] at h
  | f + 1 => by
    simp only [decodeMBlocks] at h
    cases hvd : varintDec 10 b with
    | error e => rw [hvd] at h; simp [Except.bind] at h
    | ok ur =>
      rw [hvd] at h
      simp only [Except.bind] at h
      split at h
      · simp only [Except.ok.injEq, Prod.mk.injEq] at h
        obtain ⟨f1, hf1⟩ := varintDec_sfx 10 b ur.1 ur.2 (by rw [hvd])
        exact ⟨f1, by rw [← h.2]; exact hf1⟩
      · split at h
        · simp at h
        · cases hit : decodeMItems vs (unzigzag ur.1).toNat ur.2 with
          | error e => rw [hit] at h; simp [Except.bind] at h
          | ok esr =>
            rw [hit] at h
            simp only [Except.bind] at h
            cases hbl2 : decodeMBlocks vs f esr.2 with
            | error e => rw [hbl2] at h; simp [Except.map] at h
            | ok esr2 =>
              rw [hbl2] at h
              simp only [Except.map, Except.ok.injEq, Prod.mk.injEq] at h
              obtain ⟨f1, hf1⟩ := varintDec_sfx 10 b ur.1 ur.2 (by rw [hvd])
              obtain ⟨f2, hf2⟩ := decMI_sfx vs (unzigzag ur.1).toNat ur.2 esr.1 esr.2 (by rw [hit])
              obtain ⟨f3, hf3⟩ := decMB_sfx vs f esr.2 esr2.1 esr2.2 (by rw [hbl2])
              refine ⟨f1 ++ (f2 ++ f3), suffix_trans hf1 (suffix_trans hf2 ?_)⟩
              rw [← h.2]
              exact hf3
termination_by (3 * sizeOf vs + 2, f, 0)
decreasing_by
  all_goals simp_wf
  all_goals try (apply Prod.Lex.left; omega)
  all_goals (apply Prod.Lex.right; apply Prod.Lex.left; omega)

theorem decMI_sfx (vs : Schema) (n : Nat) (b : List Nat) (es : List (String × Value))
    (rest : List Nat) (h : decodeMItems vs n b = .ok (es, rest)) :
    ∃ front, front ++ rest = b :=
  match n with
  | 0 => by
    simp only [decodeMItems, Except.ok.injEq, Prod.mk.injEq] at h
    exact ⟨[], by simp [h.2]⟩
  | n + 1 => by
    simp only [decodeMItems] at h
    cases hsd : strDec b with
    | error e => rw [hsd] at h; simp [Except.bind] at h
    | ok kr =>
      rw [hsd] at h
      simp only [Except.bind] at h
      cases hdb : decodeB vs kr.2 with
      | error e => rw [hdb] at h; simp [Except.bind] at h
      | ok wr =>
        rw [hdb] at h
        simp only [Except.bind] at h
        cases hit : decodeMItems vs n wr.2 with
        | error e => rw [hit] at h; simp [Except.map] at h
        | ok esr =>
          rw [hit] at h
          simp only [Except.map, Except.ok.injEq, Prod.mk.injEq] at h
          obtain ⟨f1, hf1⟩ := strDec_sfx b kr.1 kr.2 (by rw [hsd])
          obtain ⟨f2, hf2⟩ := decB_sfx vs kr.2 wr.1 wr.2 (by rw [hdb])
          obtain ⟨f3, hf3⟩ := decMI_sfx vs n wr.2 esr.1 esr.2 (by rw [hit])
          refine ⟨f1 ++ (f2 ++ f3), suffix_trans hf1 (suffix_trans hf2 ?_)⟩
          rw [← h.2]
          exact hf3
termination_by (3 * sizeOf vs + 1, 0, n)
decreasing_by
  all_goals simp_wf
  all_goals try (apply Prod.Lex.left; omega)
  all_goals (apply Prod.Lex.right; apply Prod.Lex.right; omega)

theorem decRF_sfx (flds : List (String × Schema × Option Value)) (b : List Nat)
    (es : List (String × Value)) (rest : List Nat)
    (h : decodeRFields flds b = .ok (es, rest)) : ∃ front, front ++ rest = b :=
  match flds with
  | [] => by
    simp only [decodeRFields, Except.ok.injEq, Prod.mk.injEq] at h
    exact ⟨[], by simp [h.2]⟩
  | (fn, ft, fdef) :: fr => by
    simp only [decodeRFields] at h
    cases hdb : decodeB ft b with
    | error e => rw [hdb] at h; simp [Except.bind] at h
    | ok wr =>
      rw [hdb] at h
      simp only [Except.bind] at h
      cases hrf : decodeRFields fr wr.2 with
      | error e => rw [hrf] at h; simp [Except.map] at h
      | ok esr =>
        rw [hrf] at h
        simp only [Except.map, Except.ok.injEq, Prod.mk.injEq] at h
        obtain ⟨f1, hf1⟩ := decB_sfx ft b wr.1 wr.2 (by rw [hdb])
        obtain ⟨f2, hf2⟩ := decRF_sfx fr wr.2 esr.1 esr.2 (by rw [hrf])
        refine ⟨f1 ++ f2, suffix_trans hf1 ?_⟩
        rw [← h.2]
        exact hf2
termination_by (3 * sizeOf flds + 2, 0, 0)
decreasing_by
  all_goals simp_wf
  all_goals (apply Prod.Lex.left; omega)

end

/-- Modelled from the spec: the JSON-shaped text produced and consumed
by the textual codec, as a tree (null, booleans, numbers, strings and
objects; the schema kinds used by the repository need no JSON arrays). -/
inductive Json
  | jnull
  | jbool (b : Bool)
  | jnum (n : Int)
  | jstr (s : String)
  | jobj (fields : List (String × Json))

def isNullS : Schema → Bool
  | .snull => true
  | _ => false

/-- Modelled from the spec: whether a union has a null branch, used to
decode a bare JSON null. -/
def hasNullBranch : List Schema → Bool
  | [] => false
  | b :: rest => isNullS b || hasNullBranch rest

/-- Modelled from the spec: find the union branch whose canonical name
matches the single-entry wrapper key of a textual union value. -/
def branchByName : List Schema → String → Option Schema
  | [], _ => none
  | b :: rest, k => if branchName b == k then some b else branchByName rest k

mutual

/-- Modelled from the spec: the textual encoder `encodeTextual(schema,
value)` of the codec — null to JSON null, booleans and longs to JSON
scalars, strings to JSON strings, maps and records to JSON objects
(record fields in declaration order, absent fields from the declared
default), and unions to the branch encoding wrapped in a single-entry
object keyed by the branch's canonical name, except that the null
branch encodes as bare JSON null; the codec implementation is not in
the repository sources. -/
def encodeT : Schema → Value → Except EncErr Json
  | .snull, .vnull => .ok .jnull
  | .sboolean, .vbool b => .ok (.jbool b)
  | .slong, .vlong n => .ok (.jnum n)
  | .sstring, .vstr s => .ok (.jstr s)
  | .smap vs, .vmap l =>
    (encodeTEntries vs (sortEntries l)).map (fun es => .jobj es)
  | .sunion bs, v =>
    match hm : firstMatch bs v with
    | none => .error .noMatchingBranch
    | some (_, br) =>
      if isNullS br then encodeT br v
      else (encodeT br v).map (fun j => .jobj [(branchName br, j)])
  | .srecord _ flds, .vrec entries =>
    (encodeTFields flds entries).map (fun es => .jobj es)
  | _, _ => .error .typeMismatch
termination_by s v => (3 * sizeOf s, 0)
decreasing_by
  all_goals simp_wf
  all_goals try (apply Prod.Lex.left; omega)
  all_goals
    (have hmem := List.sizeOf_lt_of_mem (firstMatch_mem hm)
     apply Prod.Lex.left
     omega)

/-- Modelled from the spec: textual encoding of map entries in
canonical order. -/
def encodeTEntries (vs : Schema) : List (String × Value) → Except EncErr (List (String × Json))
  | [] => .ok []
  | (k, w) :: rest =>
    (encodeT vs w).bind (fun jw =>
      (encodeTEntries vs rest).map (fun jrest => (k, jw) :: jrest))
termination_by l => (3 * sizeOf vs + 1, sizeOf l)
decreasing_by
  all_goals simp_wf
  all_goals try (apply Prod.Lex.left; omega)
  all_goals (apply Prod.Lex.right; omega)

/-- Modelled from the spec: textual encoding of record fields in
declaration order, with the declared default for absent fields. -/
def encodeTFields : List (String × Schema × Option Value) → List (String × Value) →
    Except EncErr (List (String × Json))
  | [], _ => .ok []
  | (fn, ft, fdef) :: rest, entries =>
    (fieldValue fdef (entries.lookup fn)).bind (fun w =>
      (encodeT ft w).bind (fun jw =>
        (encodeTFields rest entries).map (fun jrest => (fn, jw) :: jrest)))
termination_by flds entries => (3 * sizeOf flds + 2, 0)
decreasing_by
  all_goals simp_wf
  all_goals (apply Prod.Lex.left; omega)

end

theorem branchByName_mem : ∀ {bs : List Schema} {k : String} {br : Schema},
    branchByName bs k = some br → br ∈ bs := by
  intro bs
  induction bs with
  | nil => intro k br h; simp [branchByName] at h
  | cons b rest ih =>
    intro k br h
    simp only [branchByName] at h
    by_cases hb : (branchName b == k) = true
    · rw [if_pos hb] at h
      simp only [Option.some.injEq] at h
      simp [h]
    · rw [if_neg hb] at h
      exact List.mem_cons_of_mem _ (ih h)

mutual

/-- Modelled from the spec: the textual decoder `decodeTextual(schema,
text)` of the codec — a bare JSON null selects a union's null branch, a
single-entry object selects the branch named by its key (failing with
`unknownUnionTag` when no branch matches), objects decode maps and
records (record fields looked up by name), and scalars decode the
primitive kinds; the codec implementation is not in the repository
sources. -/
def decodeT : Schema → Json → Except DecErr Value
  | .snull, .jnull => .ok .vnull
  | .sboolean, .jbool b => .ok (.vbool b)
  | .slong, .jnum n => .ok (.vlong n)
  | .sstring, .jstr s => .ok (.vstr s)
  | .smap vs, .jobj es => (decodeTEntries vs es).map (fun ws => .vmap ws)
  | .sunion bs, .jnull =>
    if hasNullBranch bs then .ok .vnull else .error .unknownUnionTag
  | .sunion bs, .jobj [(k, j)] =>
    match hb : branchByName bs k with
    | none => .error .unknownUnionTag
    | some br => decodeT br j
  | .sunion _, _ => .error .malformed
  | .srecord _ flds, .jobj es => (decodeTFields flds es).map (fun ws => .vrec ws)
  | _, _ => .error .malformed
termination_by s j => (3 * sizeOf s, 0)
decreasing_by
  all_goals simp_wf
  all_goals try (apply Prod.Lex.left; omega)
  all_goals
    (have hmem := List.sizeOf_lt_of_mem (branchByName_mem hb)
     apply Prod.Lex.left
     omega)

/-- Modelled from the spec: textual decoding of map entries. -/
def decodeTEntries (vs : Schema) : List (String × Json) → Except DecErr (List (String × Value))
  | [] => .ok []
  | (k, j) :: rest =>
    (decodeT vs j).bind (fun w =>
      (decodeTEntries vs rest).map (fun wrest => (k, w) :: wrest))
termination_by l => (3 * sizeOf vs + 1, sizeOf l)
decreasing_by
  all_goals simp_wf
  all_goals try (apply Prod.Lex.left; omega)
  all_goals (apply Prod.Lex.right; omega)

/-- Modelled from the spec: textual decoding of record fields — each
declared field is looked up by name in the object (order not required),
failing with `malformed` when absent. -/
def decodeTFields : List (String × Schema × Option Value) → List (String × Json) →
    Except DecErr (List (String × Value))
  | [], _ => .ok []
  | (fn, ft, _) :: rest, es =>
    match es.lookup fn with
    | none => .error .malformed
    | some j =>
      (decodeT ft j).bind (fun w =>
        (decodeTFields rest es).map (fun wrest => (fn, w) :: wrest))
termination_by flds es => (3 * sizeOf flds + 2, 0)
decreasing_by
  all_goals simp_wf
  all_goals (apply Prod.Lex.left; omega)

end

theorem firstMatch_kind : ∀ {bs : List Schema} {v : Value} {i : Nat} {br : Schema},
    firstMatch bs v = some (i, br) → kindMatches br v = true := by
  intro bs
  induction bs with
  | nil => intro v i br h; simp [firstMatch] at h
  | cons b rest ih =>
    intro v i br h
    simp only [firstMatch] at h
    by_cases hk : kindMatches b v
    · rw [if_pos hk] at h
      simp only [Option.some.injEq, Prod.mk.injEq] at h
      rw [← h.2]
      exact hk
    · rw [if_neg hk] at h
      match hrec : firstMatch rest v with
      | some (j, br2) =>
        rw [hrec] at h
        simp only [Option.some.injEq, Prod.mk.injEq] at h
        obtain ⟨hi, hbr⟩ := h
        subst hbr
        exact ih hrec
      | none => rw [hrec] at h; exact absurd h (by simp)

theorem hasNullBranch_of_mem : ∀ {bs : List Schema} {br : Schema},
    br ∈ bs → isNullS br = true → hasNullBranch bs = true := by
  intro bs
  induction bs with
  | nil => intro br h _; simp at h
  | cons b rest ih =>
    intro br h hn
    rcases List.mem_cons.mp h with rfl | h2
    · simp [hasNullBranch, hn]
    · simp [hasNullBranch, ih h2 hn]

theorem branchByName_first : ∀ {bs : List Schema} {br : Schema},
    allDistinct (bs.map branchName) = true → br ∈ bs →
    branchByName bs (branchName br) = some br := by
  intro bs
  induction bs with
  | nil => intro br _ h; simp at h
  | cons b rest ih =>
    intro br hnd hm
    simp only [List.map_cons] at hnd
    obtain ⟨hnotmem, hnd2⟩ := contains_eq_false_of_allDistinct_head hnd
    rcases List.mem_cons.mp hm with rfl | h2
    · simp [branchByName]
    · have hne : branchName b ≠ branchName br := by
        intro hc
        apply hnotmem
        rw [hc]
        exact List.mem_map_of_mem branchName h2
      simp only [branchByName]
      rw [if_neg (by simpa using hne)]
      exact ih hnd2 h2

theorem encodeTFields_cons_irrel :
    ∀ (rest : List (String × Schema × Option Value)) (en : String) (w : Value)
      (er : List (String × Value)),
    ¬ (en ∈ rest.map Prod.fst) →
    encodeTFields rest ((en, w) :: er) = encodeTFields rest er := by
  intro rest
  induction rest with
  | nil => intro en w er _; simp [encodeTFields]
  | cons hd rest2 ih =>
    intro en w er hnm
    match hd with
    | (fn, ft, fdef) =>
      have hne : fn ≠ en := by
        intro hc
        apply hnm
        simp [hc]
      have hlk : List.lookup fn ((en, w) :: er) = List.lookup fn er := by
        simp only [List.lookup]
        have hb : (fn == en) = false := beq_eq_false_iff_ne.mpr hne
        rw [hb]
      have hnm2 : ¬ (en ∈ rest2.map Prod.fst) := by
        intro hc
        apply hnm
        simp only [List.map_cons, List.mem_cons]
        right
        exact hc
      simp only [encodeTFields, hlk, ih en w er hnm2]

theorem decodeTFields_cons_irrel :
    ∀ (rest : List (String × Schema × Option Value)) (en : String) (j : Json)
      (es : List (String × Json)),
    ¬ (en ∈ rest.map Prod.fst) →
    decodeTFields rest ((en, j) :: es) = decodeTFields rest es := by
  intro rest
  induction rest with
  | nil => intro en j es _; simp [decodeTFields]
  | cons hd rest2 ih =>
    intro en j es hnm
    match hd with
    | (fn, ft, fdef) =>
      have hne : fn ≠ en := by
        intro hc
        apply hnm
        simp [hc]
      have hlk : List.lookup fn ((en, j) :: es) = List.lookup fn es := by
        simp only [List.lookup]
        have hb : (fn == en) = false := beq_eq_false_iff_ne.mpr hne
        rw [hb]
      have hnm2 : ¬ (en ∈ rest2.map Prod.fst) := by
        intro hc
        apply hnm
        simp only [List.map_cons, List.mem_cons]
        right
        exact hc
      simp only [decodeTFields, hlk, ih en j es hnm2]

mutual

theorem decT_encT (s : Schema) (v : Value) (hwf : wfB s = true) (hv : validB s v = true)
    (j : Json) (henc : encodeT s v = .ok j) : decodeT s j = .ok v :=
  match s, v, hwf, hv, henc with
  | .snull, .vnull, _, _, henc => by
    simp only [encodeT, Except.ok.injEq] at henc
    subst henc
    simp [decodeT]
  | .snull, .vbool _, _, _, henc => by simp [encodeT] at henc
  | .snull, .vlong _, _, _, henc => by simp [encodeT] at henc
  | .snull, .vstr _, _, _, henc => by simp [encodeT] at henc
  | .snull, .vmap _, _, _, henc => by simp [encodeT] at henc
  | .snull, .vrec _, _, _, henc => by simp [encodeT] at henc
  | .sboolean, .vbool b, _, _, henc => by
    simp only [encodeT, Except.ok.injEq] at henc
    subst henc
    simp [decodeT]
  | .sboolean, .vnull, _, _, henc => by simp [encodeT] at henc
  | .sboolean, .vlong _, _, _, henc => by simp [encodeT] at henc
  | .sboolean, .vstr _, _, _, henc => by simp [encodeT] at henc
  | .sboolean, .vmap _, _, _, henc => by simp [encodeT] at henc
  | .sboolean, .vrec _, _, _, henc => by simp [encodeT] at henc
  | .slong, .vlong n, _, _, henc => by
    simp only [encodeT, Except.ok.injEq] at henc
    subst henc
    simp [decodeT]
  | .slong, .vnull, _, _, henc => by simp [encodeT] at henc
  | .slong, .vbool _, _, _, henc => by simp [encodeT] at henc
  | .slong, .vstr _, _, _, henc => by simp [encodeT] at henc
  | .slong, .vmap _, _, _, henc => by simp [encodeT] at henc
  | .slong, .vrec _, _, _, henc => by simp [encodeT] at henc
  | .sstring, .vstr t, _, _, henc => by
    simp only [encodeT, Except.ok.injEq] at henc
    subst henc
    simp [decodeT]
  | .sstring, .vnull, _, _, henc => by simp [encodeT] at henc
  | .sstring, .vbool _, _, _, henc => by simp [encodeT] at henc
  | .sstring, .vlong _, _, _, henc => by simp [encodeT] at henc
  | .sstring, .vmap _, _, _, henc => by simp [encodeT] at henc
  | .sstring, .vrec _, _, _, henc => by simp [encodeT] at henc
  | .smap vs, .vmap l, hwf, hv, henc => by
    simp only [validB, Bool.and_eq_true, decide_eq_true_eq] at hv
    obtain ⟨⟨hsorted, hlen⟩, hve⟩ := hv
    simp only [wfB] at hwf
    have hsort := sortEntries_of_canonical hsorted
    simp only [encodeT, hsort] at henc
    cases hE : encodeTEntries vs l with
    | error e => rw [hE] at henc; simp [Except.map] at henc
    | ok jes =>
      rw [hE] at henc
      simp only [Except.map, Except.ok.injEq] at henc
      subst henc
      simp only [decodeT]
      rw [decTE_encTE vs l hwf hve jes hE]
      simp [Except.map]
  | .smap _, .vnull, _, _, henc => by simp [encodeT] at henc
  | .smap _, .vbool _, _, _, henc => by simp [encodeT] at henc
  | .smap _, .vlong _, _, _, henc => by simp [encodeT] at henc
  | .smap _, .vstr _, _, _, henc => by simp [encodeT] at henc
  | .smap _, .vrec _, _, _, henc => by simp [encodeT] at henc
  | .sunion bs, v, hwf, hv, henc => by
    simp only [validB] at hv
    split at hv
    case _ i br heq =>
      simp only [wfB, Bool.and_eq_true, decide_eq_true_eq] at hwf
      obtain ⟨⟨hnames, hblen⟩, hbrs⟩ := hwf
      have hbrwf := (wfBranches_mem hbrs (firstMatch_mem heq)).1
      simp only [encodeT] at henc
      split at henc
      case _ heq2 => rw [heq] at heq2; simp at heq2
      case _ i2 br2 heq2 =>
        rw [heq] at heq2
        simp only [Option.some.injEq, Prod.mk.injEq] at heq2
        obtain ⟨hi2, rfl⟩ := heq2
        by_cases hnull : isNullS br = true
        · rw [if_pos hnull] at henc
          have hkm := firstMatch_kind heq
          match br, hnull with
          | .snull, _ =>
            match v, hkm with
            | .vnull, _ =>
              simp only [encodeT, Except.ok.injEq] at henc
              subst henc
              simp only [decodeT]
              rw [if_pos (hasNullBranch_of_mem (firstMatch_mem heq) rfl)]
        · rw [if_neg hnull] at henc
          cases hjb : encodeT br v with
          | error e => rw [hjb] at henc; simp [Except.map] at henc
          | ok jb =>
            rw [hjb] at henc
            simp only [Except.map, Except.ok.injEq] at henc
            subst henc
            simp only [decodeT]
            split
            case _ hb =>
              rw [branchByName_first hnames (firstMatch_mem heq)] at hb
              simp at hb
            case _ br2 hb =>
              rw [branchByName_first hnames (firstMatch_mem heq)] at hb
              simp only [Option.some.injEq] at hb
              subst hb
              have hszbr := List.sizeOf_lt_of_mem (firstMatch_mem heq)
              exact decT_encT br v hbrwf hv jb hjb
    case _ => exact absurd hv (by simp)
  | .srecord nm flds, .vrec entries, hwf, hv, henc => by
    simp only [encodeT] at henc
    simp only [validB] at hv
    simp only [wfB, Bool.and_eq_true] at hwf
    cases hE : encodeTFields flds entries with
    | error e => rw [hE] at henc; simp [Except.map] at henc
    | ok jes =>
      rw [hE] at henc
      simp only [Except.map, Except.ok.injEq] at henc
      subst henc
      simp only [decodeT]
      rw [decTF_encTF flds entries hwf.1 hwf.2 hv jes hE]
      simp [Except.map]
  | .srecord _ _, .vnull, _, _, henc => by simp [encodeT] at henc
  | .srecord _ _, .vbool _, _, _, henc => by simp [encodeT] at henc
  | .srecord _ _, .vlong _, _, _, henc => by simp [encodeT] at henc
  | .srecord _ _, .vstr _, _, _, henc => by simp [encodeT] at henc
  | .srecord _ _, .vmap _, _, _, henc => by simp [encodeT] at henc
termination_by (3 * sizeOf s, 0)
decreasing_by
  all_goals simp_wf
  all_goals (apply Prod.Lex.left; omega)

theorem decTE_encTE (vs : Schema) (es : List (String × Value)) (hwf : wfB vs = true)
    (hv : validMEntries vs es = true) (jes : List (String × Json))
    (henc : encodeTEntries vs es = .ok jes) : decodeTEntries vs jes = .ok es :=
  match es, hv, henc with
  | [], _, henc => by
    simp only [encodeTEntries, Except.ok.injEq] at henc
    subst henc
    simp [decodeTEntries]
  | (k, w) :: es2, hv, henc => by
    simp only [validMEntries, Bool.and_eq_true, decide_eq_true_eq] at hv
    obtain ⟨⟨hk, hvw⟩, hve2⟩ := hv
    simp only [encodeTEntries] at henc
    cases hjw : encodeT vs w with
    | error e => rw [hjw] at henc; simp [Except.bind] at henc
    | ok jw =>
      rw [hjw] at henc
      simp only [Except.bind] at henc
      cases hjr : encodeTEntries vs es2 with
      | error e => rw [hjr] at henc; simp [Except.map] at henc
      | ok jrest =>
        rw [hjr] at henc
        simp only [Except.map, Except.ok.injEq] at henc
        subst henc
        simp only [decodeTEntries]
        rw [decT_encT vs w hwf hvw jw hjw]
        simp only [Except.bind]
        rw [decTE_encTE vs es2 hwf hve2 jrest hjr]
        simp [Except.map]
termination_by (3 * sizeOf vs + 1, sizeOf es)
decreasing_by
  all_goals simp_wf
  all_goals try (apply Prod.Lex.left; omega)
  all_goals (apply Prod.Lex.right; omega)

theorem decTF_encTF (flds : List (String × Schema × Option Value))
    (entries : List (String × Value)) (hnd : allDistinct (flds.map Prod.fst) = true)
    (hwfl : wfFieldList flds = true) (hv : validRFields flds entries = true)
    (jes : List (String × Json)) (henc : encodeTFields flds entries = .ok jes) :
    decodeTFields flds jes = .ok entries :=
  match flds, entries, hv, henc with
  | [], [], _, henc => by
    simp only [encodeTFields, Except.ok.injEq] at henc
    subst henc
    simp [decodeTFields]
  | [], _ :: _, hv, _ => by simp [validRFields] at hv
  | (fn, ft, fdef) :: fr, [], hv, _ => by simp [validRFields] at hv
  | (fn, ft, fdef) :: fr, (en, w) :: er, hv, henc => by
    simp only [validRFields, Bool.and_eq_true] at hv
    obtain ⟨⟨hbeq, hvw⟩, hvr⟩ := hv
    have hfe : fn = en := eq_of_beq hbeq
    subst hfe
    simp only [List.map_cons] at hnd
    obtain ⟨hnotmem, hnd2⟩ := contains_eq_false_of_allDistinct_head hnd
    simp only [wfFieldList, Bool.and_eq_true] at hwfl
    obtain ⟨hwft, hwfl2⟩ := hwfl
    simp only [encodeTFields] at henc
    have hlk : List.lookup fn ((fn, w) :: er) = some w := by simp [List.lookup]
    rw [hlk] at henc
    simp only [fieldValue, Except.bind] at henc
    cases hjw : encodeT ft w with
    | error e => rw [hjw] at henc; simp [Except.bind] at henc
    | ok jw =>
      rw [hjw] at henc
      simp only [Except.bind] at henc
      rw [encodeTFields_cons_irrel fr fn w er hnotmem] at henc
      cases hjr : encodeTFields fr er with
      | error e => rw [hjr] at henc; simp [Except.map] at henc
      | ok jrest =>
        rw [hjr] at henc
        simp only [Except.map, Except.ok.injEq] at henc
        subst henc
        have hlk2 : List.lookup fn ((fn, jw) :: jrest) = some jw := by simp [List.lookup]
        simp only [decodeTFields, hlk2]
        rw [decT_encT ft w hwft hvw jw hjw]
        simp only [Except.bind]
        rw [decodeTFields_cons_irrel fr fn jw jrest hnotmem]
        rw [decTF_encTF fr er hnd2 hwfl2 hvr jrest hjr]
        simp [Except.map]
termination_by (3 * sizeOf flds + 2, 0)
decreasing_by
  all_goals simp_wf
  all_goals (apply Prod.Lex.left; omega)

end

mutual

theorem encT_total (s : Schema) (v : Value) (hwf : wfB s = true) (hv : validB s v = true) :
    ∃ j, encodeT s v = .ok j :=
  match s, v, hwf, hv with
  | .snull, .vnull, _, _ => ⟨.jnull, by simp [encodeT]⟩
  | .snull, .vbool _, _, hv => by simp [validB] at hv
  | .snull, .vlong _, _, hv => by simp [validB] at hv
  | .snull, .vstr _, _, hv => by simp [validB] at hv
  | .snull, .vmap _, _, hv => by simp [validB] at hv
  | .snull, .vrec _, _, hv => by simp [validB] at hv
  | .sboolean, .vbool b, _, _ => ⟨.jbool b, by simp [encodeT]⟩
  | .sboolean, .vnull, _, hv => by simp [validB] at hv
  | .sboolean, .vlong _, _, hv => by simp [validB] at hv
  | .sboolean, .vstr _, _, hv => by simp [validB] at hv
  | .sboolean, .vmap _, _, hv => by simp [validB] at hv
  | .sboolean, .vrec _, _, hv => by simp [validB] at hv
  | .slong, .vlong n, _, _ => ⟨.jnum n, by simp [encodeT]⟩
  | .slong, .vnull, _, hv => by simp [validB] at hv
  | .slong, .vbool _, _, hv => by simp [validB] at hv
  | .slong, .vstr _, _, hv => by simp [validB] at hv
  | .slong, .vmap _, _, hv => by simp [validB] at hv
  | .slong, .vrec _, _, hv => by simp [validB] at hv
  | .sstring, .vstr t, _, _ => ⟨.jstr t, by simp [encodeT]⟩
  | .sstring, .vnull, _, hv => by simp [validB] at hv
  | .sstring, .vbool _, _, hv => by simp [validB] at hv
  | .sstring, .vlong _, _, hv => by simp [validB] at hv
  | .sstring, .vmap _, _, hv => by simp [validB] at hv
  | .sstring, .vrec _, _, hv => by simp [validB] at hv
  | .smap vs, .vmap l, hwf, hv => by
    simp only [validB, Bool.and_eq_true, decide_eq_true_eq] at hv
    obtain ⟨⟨hsorted, hlen⟩, hve⟩ := hv
    simp only [wfB] at hwf
    have hsort := sortEntries_of_canonical hsorted
    obtain ⟨jes, hE⟩ := encTE_total vs l hwf hve
    refine ⟨.jobj jes, ?_⟩
    simp only [encodeT, hsort, hE, Except.map]
  | .smap _, .vnull, _, hv => by simp [validB] at hv
  | .smap _, .vbool _, _, hv => by simp [validB] at hv
  | .smap _, .vlong _, _, hv => by simp [validB] at hv
  | .smap _, .vstr _, _, hv => by simp [validB] at hv
  | .smap _, .vrec _, _, hv => by simp [validB] at hv
  | .sunion bs, v, hwf, hv => by
    simp only [validB] at hv
    split at hv
    case _ i br heq =>
      simp only [wfB, Bool.and_eq_true, decide_eq_true_eq] at hwf
      have hbrwf := (wfBranches_mem hwf.2 (firstMatch_mem heq)).1
      have hszbr := List.sizeOf_lt_of_mem (firstMatch_mem heq)
      obtain ⟨jb, hjb⟩ := encT_total br v hbrwf hv
      by_cases hnull : isNullS br = true
      · refine ⟨jb, ?_⟩
        simp only [encodeT]
        split
        case _ heq2 => rw [heq] at heq2; simp at heq2
        case _ i2 br2 heq2 =>
          rw [heq] at heq2
          simp only [Option.some.injEq, Prod.mk.injEq] at heq2
          obtain ⟨hi2, rfl⟩ := heq2
          rw [if_pos hnull]
          exact hjb
      · refine ⟨.jobj [(branchName br, jb)], ?_⟩
        simp only [encodeT]
        split
        case _ heq2 => rw [heq] at heq2; simp at heq2
        case _ i2 br2 heq2 =>
          rw [heq] at heq2
          simp only [Option.some.injEq, Prod.mk.injEq] at heq2
          obtain ⟨hi2, rfl⟩ := heq2
          rw [if_neg hnull, hjb]
          simp [Except.map]
    case _ => exact absurd hv (by simp)
  | .srecord nm flds, .vrec entries, hwf, hv => by
    simp only [wfB, Bool.and_eq_true] at hwf
    simp only [validB] at hv
    obtain ⟨jes, hE⟩ := encTF_total flds entries hwf.1 hwf.2 hv
    refine ⟨.jobj jes, ?_⟩
    simp only [encodeT, hE, Except.map]
  | .srecord _ _, .vnull, _, hv => by simp [validB] at hv
  | .srecord _ _, .vbool _, _, hv => by simp [validB] at hv
  | .srecord _ _, .vlong _, _, hv => by simp [validB] at hv
  | .srecord _ _, .vstr _, _, hv => by simp [validB] at hv
  | .srecord _ _, .vmap _, _, hv => by simp [validB] at hv
termination_by (3 * sizeOf s, 0)
decreasing_by
  all_goals simp_wf
  all_goals (apply Prod.Lex.left; omega)

theorem encTE_total (vs : Schema) (es : List (String × Value)) (hwf : wfB vs = true)
    (hv : validMEntries vs es = true) : ∃ jes, encodeTEntries vs es = .ok jes :=
  match es, hv with
  | [], _ => ⟨[], by simp [encodeTEntries]⟩
  | (k, w) :: es2, hv => by
    simp only [validMEntries, Bool.and_eq_true, decide_eq_true_eq] at hv
    obtain ⟨⟨hk, hvw⟩, hve2⟩ := hv
    obtain ⟨jw, hjw⟩ := encT_total vs w hwf hvw
    obtain ⟨jrest, hjr⟩ := encTE_total vs es2 hwf hve2
    refine ⟨(k, jw) :: jrest, ?_⟩
    simp only [encodeTEntries, hjw, hjr, Except.bind, Except.map]
termination_by (3 * sizeOf vs + 1, sizeOf es)
decreasing_by
  all_goals simp_wf
  all_goals try (apply Prod.Lex.left; omega)
  all_goals (apply Prod.Lex.right; omega)

theorem encTF_total (flds : List (String × Schema × Option Value))
    (entries : List (String × Value)) (hnd : allDistinct (flds.map Prod.fst) = true)
    (hwfl : wfFieldList flds = true) (hv : validRFields flds entries = true) :
    ∃ jes, encodeTFields flds entries = .ok jes :=
  match flds, entries, hv with
  | [], [], _ => ⟨[], by simp [encodeTFields]⟩
  | [], _ :: _, hv => by simp [validRFields] at hv
  | (fn, ft, fdef) :: fr, [], hv => by simp [validRFields] at hv
  | (fn, ft, fdef) :: fr, (en, w) :: er, hv => by
    simp only [validRFields, Bool.and_eq_true] at hv
    obtain ⟨⟨hbeq, hvw⟩, hvr⟩ := hv
    have hfe : fn = en := eq_of_beq hbeq
    subst hfe
    simp only [List.map_cons] at hnd
    obtain ⟨hnotmem, hnd2⟩ := contains_eq_false_of_allDistinct_head hnd
    simp only [wfFieldList, Bool.and_eq_true] at hwfl
    obtain ⟨hwft, hwfl2⟩ := hwfl
    obtain ⟨jw, hjw⟩ := encT_total ft w hwft hvw
    obtain ⟨jrest, hjr⟩ := encTF_total fr er hnd2 hwfl2 hvr
    refine ⟨(fn, jw) :: jrest, ?_⟩
    simp only [encodeTFields]
    have hlk : List.lookup fn ((fn, w) :: er) = some w := by simp [List.lookup]
    rw [hlk]
    simp only [fieldValue, Except.bind]
    rw [hjw]
    simp only [Except.bind]
    rw [encodeTFields_cons_irrel fr fn w er hnotmem, hjr]
    simp [Except.map]
termination_by (3 * sizeOf flds + 2, 0)
decreasing_by
  all_goals simp_wf
  all_goals (apply Prod.Lex.left; omega)

end

/-- A JSON document as produced by Go's encoding/json marshaling: null,
booleans, numbers (integral numbers in this model), strings, arrays and
objects. -/
inductive GoJson
  | gnull
  | gbool (b : Bool)
  | gnum (n : Int)
  | gstr (s : String)
  | garr (xs : List GoJson)
  | gobj (kvs : List (String × GoJson))

/-- A Go `interface\x7b\x7d` value as seen by encoding/json: it either
marshals to a JSON document or marshaling fails (channels, functions,
cyclic values, unsupported floats). -/
inductive GoData
  | val (j : GoJson)
  | unencodable

/-- Go's `json.Marshal` on an arbitrary value: a document for
marshalable values, an error otherwise. -/
def goMarshal : GoData → Except Unit GoJson
  | .val j => .ok j
  | .unencodable => .error ()

def hexDigit (n : Nat) : Char :=
  if n < 10 then Char.ofNat (48 + n) else Char.ofNat (87 + n)

/-- One character of a JSON string rendered the way Go's encoding/json
renders it: quotes, backslashes and common control characters use short
escapes, other control characters and the HTML-sensitive characters use
unicode escapes, everything else is kept. -/
def jsonEscapeChar (c : Char) : String :=
  if c = '"' then "\\\""
  else if c = '\\' then "\\\\"
  else if c = '\n' then "\\n"
  else if c = '\r' then "\\r"
  else if c = '\t' then "\\t"
  else if c = '<' then "\\u003c"
  else if c = '>' then "\\u003e"
  else if c = '&' then "\\u0026"
  else if c.toNat < 32 then
    String.mk ['\\', 'u', '0', '0', hexDigit (c.toNat / 16), hexDigit (c.toNat % 16)]
  else String.mk [c]

def jsonEscape (s : String) : String :=
  s.data.foldl (fun acc c => acc ++ jsonEscapeChar c) ""

mutual

/-- The compact JSON text Go's `json.Marshal` produces for a document
(no spaces, object entries in order). -/
def jsonCompact : GoJson → String
  | .gnull => "null"
  | .gbool true => "true"
  | .gbool false => "false"
  | .gnum n => toString n
  | .gstr s => "\"" ++ jsonEscape s ++ "\""
  | .garr xs => "[" ++ jsonCompactArr xs ++ "]"
  | .gobj kvs => "\x7b" ++ jsonCompactObj kvs ++ "\x7d"
termination_by j => sizeOf j

/-- Comma-separated compact rendering of a JSON array body. -/
def jsonCompactArr : List GoJson → String
  | [] => ""
  | [x] => jsonCompact x
  | x :: rest => jsonCompact x ++ "," ++ jsonCompactArr rest
termination_by xs => sizeOf xs

/-- Comma-separated compact rendering of a JSON object body. -/
def jsonCompactObj : List (String × GoJson) → String
  | [] => ""
  | [(k, v)] => "\"" ++ jsonEscape k ++ "\":" ++ jsonCompact v
  | (k, v) :: rest =>
    "\"" ++ jsonEscape k ++ "\":" ++ jsonCompact v ++ "," ++ jsonCompactObj rest
termination_by kvs => sizeOf kvs

end

/-- Translated from src/unnamed/part_002 `convertToAvroMap`, inner
switch: a JSON string value is kept verbatim, JSON null becomes the
empty string, every other value becomes its compact JSON text. -/
def avroMapValue : GoJson → String
  | .gstr s => s
  | .gnull => ""
  | j => jsonCompact j

/-- Translated from src/unnamed/part_002 `convertToAvroMap`: marshal
the input to JSON and unmarshal into a string-keyed map, returning the
empty map when marshaling fails or the document is not an object, else
convert every member with `avroMapValue`. -/
def convertToAvroMap (data : GoData) : List (String × String) :=
  match goMarshal data with
  | .error _ => []
  | .ok (.gobj kvs) => kvs.map (fun kv => (kv.1, avroMapValue kv.2))
  | .ok _ => []

/-- Translated from src/server/utils.go `structToMap`: marshal the
struct to JSON and unmarshal the result into a string-keyed map,
returning the empty map when either step fails (a non-object document
makes the unmarshal into a map fail). -/
def structToMap (d : GoData) : List (String × GoJson) :=
  match goMarshal d with
  | .error _ => []
  | .ok (.gobj kvs) => kvs
  | .ok _ => []

/-- Translated from src/server/main.go lines 15-22: the `AvroLogWrapper`
struct; its fields carry only `avro` struct tags and no `json` tags. -/
structure AvroLogWrapper where
  ProjectName : String
  ProjectVersion : String
  Body : String
  LogLevel : String
  LogType : String
  LogSource : String

/-- Translated from Go's encoding/json struct marshaling rule used by
`structToMap`: a struct without `json` tags marshals to an object keyed
by the Go field names, in declaration order (the `avro` tags play no
role for encoding/json). -/
def AvroLogWrapper.marshalJson (w : AvroLogWrapper) : GoJson :=
  .gobj [("ProjectName", .gstr w.ProjectName), ("ProjectVersion", .gstr w.ProjectVersion),
    ("Body", .gstr w.Body), ("LogLevel", .gstr w.LogLevel),
    ("LogType", .gstr w.LogType), ("LogSource", .gstr w.LogSource)]

/-- Translated from src/server/main.go lines 33-44: `wrapperSchema`. -/
def wrapperSchema : Schema :=
  .srecord "LogWrapper"
    [("projectName", .sstring, none), ("projectVersion", .sstring, none),
     ("body", .sstring, none), ("logLevel", .sstring, none),
     ("logType", .sstring, none), ("logSource", .sstring, none)]

/-- Translated from src/server/main.go lines 46-57: `logDataSchema`;
the `metadata` and `domainData` fields are nullable string maps with
default null. -/
def logDataSchema : Schema :=
  .srecord "LogData"
    [("timestamp", .slong, none), ("logtype", .sstring, none),
     ("version", .sstring, none), ("issuer", .sstring, none),
     ("metadata", .sunion [.snull, .smap .sstring], some .vnull),
     ("domainData", .sunion [.snull, .smap .sstring], some .vnull)]

/-- The field names a record schema declares, in declaration order. -/
def recordFieldNames : Schema → List String
  | .srecord _ flds => flds.map Prod.fst
  | _ => []

/-- The object keys `structToMap` produces for an `AvroLogWrapper`. -/
def wrapperGoKeys : List String :=
  ["ProjectName", "ProjectVersion", "Body", "LogLevel", "LogType", "LogSource"]

theorem pairwise_le_of_sortEntries (l : List (String × Value)) :
    List.Pairwise (fun a b : String × Value => a.1 ≤ b.1) (sortEntries l) := by
  have h := @List.sorted_mergeSort (String × Value) (fun a b => decide (a.1 ≤ b.1))
    (fun a b c hab hbc => by
      simp only [decide_eq_true_eq] at hab hbc ⊢
      exact le_trans hab hbc)
    (fun a b => by
      simp only [Bool.or_eq_true, decide_eq_true_eq]
      exact le_total a.1 b.1) l
  exact h.imp (fun hab => by simpa using hab)

theorem pairwise_lt_of_le_nodup {l : List (String × Value)}
    (hle : List.Pairwise (fun a b : String × Value => a.1 ≤ b.1) l)
    (hnd : (l.map Prod.fst).Nodup) :
    List.Pairwise (fun a b : String × Value => a.1 < b.1) l := by
  have hne : List.Pairwise (fun a b : String × Value => a.1 ≠ b.1) l :=
    (List.pairwise_map).mp hnd
  exact (hle.and hne).imp (fun h => lt_of_le_of_ne h.1 h.2)

theorem sortEntries_eq_of_perm {l1 l2 : List (String × Value)} (hp : l1.Perm l2)
    (hnd : (l1.map Prod.fst).Nodup) : sortEntries l1 = sortEntries l2 := by
  have hp1 : (sortEntries l1).Perm l1 := List.mergeSort_perm l1 _
  have hp2 : (sortEntries l2).Perm l2 := List.mergeSort_perm l2 _
  have hperm : (sortEntries l1).Perm (sortEntries l2) := hp1.trans (hp.trans hp2.symm)
  have hle1 := pairwise_le_of_sortEntries l1
  have hle2 := pairwise_le_of_sortEntries l2
  have hnd1 : ((sortEntries l1).map Prod.fst).Nodup := by
    have hmp : ((sortEntries l1).map Prod.fst).Perm (l1.map Prod.fst) := hp1.map _
    exact hmp.nodup_iff.mpr hnd
  have hnd2 : ((sortEntries l2).map Prod.fst).Nodup := by
    have hmp : ((sortEntries l2).map Prod.fst).Perm (l1.map Prod.fst) :=
      (hp2.map _).trans (hp.symm.map _)
    exact hmp.nodup_iff.mpr hnd
  have hlt1 := pairwise_lt_of_le_nodup hle1 hnd1
  have hlt2 := pairwise_lt_of_le_nodup hle2 hnd2
  haveI : IsAntisymm (String × Value) (fun a b => a.1 < b.1) :=
    ⟨fun a b h1 h2 => absurd (lt_trans h1 h2) (lt_irrefl _)⟩
  exact List.eq_of_perm_of_sorted hperm hlt1 hlt2

/-- C1: for every well-formed schema and every value that validates
against it, the binary encoding decodes back to the same value (with
the whole-buffer decode accepting it), and the textual encoding decodes
back to the same value. -/
theorem c1_round_trip (s : Schema) (v : Value) (hwf : wfB s = true)
    (hv : validB s v = true) :
    ∃ bytes json, encodeB s v = .ok bytes ∧ decodeWhole s bytes = .ok v ∧
      encodeT s v = .ok json ∧ decodeT s json = .ok v := by
  obtain ⟨bytes, hb⟩ := encB_total s v hwf hv
  obtain ⟨json, hj⟩ := encT_total s v hwf hv
  refine ⟨bytes, json, hb, ?_, hj, decT_encT s v hwf hv json hj⟩
  have hdec := decB_encB s v hwf hv bytes hb []
  rw [List.append_nil] at hdec
  simp [decodeWhole, hdec]

/-- C2: binary encoding is a deterministic function of schema and
value; in particular, for a map value the bytes do not depend on the
entry order — any two association lists that are permutations of each
other (with no duplicate keys) encode to the identical byte
sequence. -/
theorem c2_map_determinism (vs : Schema) (l1 l2 : List (String × Value))
    (hperm : l1.Perm l2) (hnd : (l1.map Prod.fst).Nodup) :
    encodeB (.smap vs) (.vmap l1) = encodeB (.smap vs) (.vmap l2) := by
  have hse := sortEntries_eq_of_perm hperm hnd
  simp only [encodeB, hse]

/-- C4: decoding any proper non-empty prefix of a valid encoded buffer
fails with the `truncated` decode error, both through the cursor-style
decode and through the whole-buffer decode. -/
theorem c4_truncation (s : Schema) (v : Value) (hwf : wfB s = true)
    (hv : validB s v = true) (buf : List Nat) (henc : encodeB s v = .ok buf)
    (p t : List Nat) (hsplit : p ++ t = buf) (hne : p ≠ []) (hproper : t ≠ []) :
    decodeWhole s p = .error .truncated ∧ decodeB s p = .error .truncated := by
  have h := decB_trunc s v hwf hv buf henc p t hsplit hproper
  exact ⟨by simp [decodeWhole, h], h⟩

/-- C5: the whole-buffer decode fails with `trailingBytes` whenever
bytes remain after one complete top-level value; when it accepts, the
underlying decode consumed the entire buffer (final cursor = buffer
length), and the cursor never moves past the buffer end. -/
theorem c5_trailing_bytes (s : Schema) (b : List Nat) :
    (∀ v rest, decodeB s b = .ok (v, rest) → rest ≠ [] →
      decodeWhole s b = .error .trailingBytes) ∧
    (∀ v, decodeWhole s b = .ok v → decodeB s b = .ok (v, [])) ∧
    (∀ v rest, decodeB s b = .ok (v, rest) → ∃ front, front ++ rest = b) := by
  refine ⟨?_, ?_, ?_⟩
  · intro v rest hdec hne
    simp [decodeWhole, hdec, hne]
  · intro v hok
    unfold decodeWhole at hok
    cases hdec : decodeB s b with
    | error e => rw [hdec] at hok; simp at hok
    | ok vr =>
      obtain ⟨v2, rest2⟩ := vr
      rw [hdec] at hok
      by_cases hr : rest2 = []
      · subst hr
        simp at hok
        subst hok
        rfl
      · simp [hr] at hok
  · intro v rest hdec
    exact decB_sfx s b v rest hdec

/-- C6: the binary encoding of the Int64 value -1 is the single byte
0x01, and of the value 64 the two bytes 0x80 0x01, per the zig-zag
varint rule. -/
theorem c6_varint_boundary :
    encodeB .slong (.vlong (-1)) = .ok [0x01] ∧
    encodeB .slong (.vlong 64) = .ok [0x80, 0x01] := by
  have hz1 : zigzag (-1) = 1 := by decide
  have hz2 : zigzag 64 = 128 := by decide
  have hv1 : varintEnc 1 = [1] := varintEnc_small (by norm_num)
  have hv128 : varintEnc 128 = [128, 1] := by
    rw [varintEnc]
    norm_num
    rw [varintEnc_small (by norm_num)]
  constructor
  · simp [encodeB, hz1, hv1]
  · simp [encodeB, hz2, hv128]

/-- C7: for the union schema with branches null and string, the Null
value selects branch index 0, encodes in binary as the bare index byte
and in textual form as bare JSON null; the string value "x" selects
branch index 1, encodes in binary as index byte then the string, and in
textual form as the single-entry object keyed "string". -/
theorem c7_union_branch :
    firstMatch [Schema.snull, Schema.sstring] Value.vnull = some (0, Schema.snull) ∧
    encodeB (.sunion [.snull, .sstring]) .vnull = .ok [0] ∧
    encodeT (.sunion [.snull, .sstring]) .vnull = .ok .jnull ∧
    firstMatch [Schema.snull, Schema.sstring] (Value.vstr "x") = some (1, Schema.sstring) ∧
    encodeB (.sunion [.snull, .sstring]) (.vstr "x") = .ok [2, 2, 120] ∧
    encodeT (.sunion [.snull, .sstring]) (.vstr "x") = .ok (.jobj [("string", .jstr "x")]) := by
  have hz0 : zigzag 0 = 0 := by decide
  have hz1 : zigzag 1 = 2 := by decide
  have hv0 : varintEnc 0 = [0] := varintEnc_small (by norm_num)
  have hv2 : varintEnc 2 = [2] := varintEnc_small (by norm_num)
  have hstr : strEnc "x" = [2, 120] := by
    unfold strEnc strBytes
    have hlen : ("x" : String).length = 1 := rfl
    rw [hlen]
    have : zigzag ((1 : Nat) : Int) = 2 := by decide
    rw [this, hv2]
    rfl
  refine ⟨by simp [firstMatch, kindMatches], ?_, ?_, by simp [firstMatch, kindMatches], ?_, ?_⟩
  · simp [encodeB, firstMatch, kindMatches, hz0, hv0, Except.map]
  · simp [encodeT, firstMatch, kindMatches, isNullS]
  · simp [encodeB, firstMatch, kindMatches, hz1, hv2, hstr, Except.map]
  · simp [encodeT, firstMatch, kindMatches, isNullS, branchName, Except.map]

/-- C8: record fields are encoded in schema declaration order; an
absent field is encoded from its declared default, and with no declared
default the encode fails with `missingField`. -/
theorem c8_record_defaults (fn : String) (ft : Schema) (fdef : Option Value)
    (rest : List (String × Schema × Option Value)) (entries : List (String × Value)) :
    (entries.lookup fn = none →
      encodeRFields ((fn, ft, none) :: rest) entries = .error .missingField) ∧
    (∀ d, entries.lookup fn = none →
      encodeRFields ((fn, ft, some d) :: rest) entries =
        (encodeB ft d).bind (fun fb =>
          (encodeRFields rest entries).map (fun restb => fb ++ restb))) ∧
    (∀ w, entries.lookup fn = some w →
      encodeRFields ((fn, ft, fdef) :: rest) entries =
        (encodeB ft w).bind (fun fb =>
          (encodeRFields rest entries).map (fun restb => fb ++ restb))) := by
  refine ⟨?_, ?_, ?_⟩
  · intro hlk
    simp [encodeRFields, hlk, fieldValue, Except.bind]
  · intro d hlk
    simp [encodeRFields, hlk, fieldValue, Except.bind]
  · intro w hlk
    simp [encodeRFields, hlk, fieldValue, Except.bind]

/-- C3 (counterexample): a conversion step toward encoding whose
marshaling fails is silently recovered — `convertToAvroMap` and
`structToMap` return the empty map instead of surfacing the failure,
so the call does produce output. -/
theorem c3_counterexample :
    goMarshal GoData.unencodable = .error () ∧
    convertToAvroMap GoData.unencodable = [] ∧
    structToMap GoData.unencodable = [] :=
  ⟨rfl, rfl, rfl⟩

/-- C3 (amended): codec-level errors are surfaced per call through the
`Except` result with no output, but the caller-side conversion helpers
silently recover: whenever marshaling fails, `convertToAvroMap` and
`structToMap` return the empty map and the pipeline continues. -/
theorem c3_amended (d : GoData) (hfail : goMarshal d = .error ()) :
    convertToAvroMap d = [] ∧ structToMap d = [] := by
  unfold convertToAvroMap structToMap
  rw [hfail]
  exact ⟨rfl, rfl⟩

/-- C9: for every `AvroLogWrapper`, the keys of `structToMap` are
exactly the Go field names (the struct has only avro tags, no json
tags), and that key set is disjoint from the field names declared by
`wrapperSchema`. -/
theorem c9_wrapper_key_mismatch (w : AvroLogWrapper) :
    (structToMap (.val w.marshalJson)).map Prod.fst = wrapperGoKeys ∧
    recordFieldNames wrapperSchema =
      ["projectName", "projectVersion", "body", "logLevel", "logType", "logSource"] ∧
    wrapperGoKeys.all (fun k => !((recordFieldNames wrapperSchema).contains k)) = true := by
  refine ⟨rfl, rfl, by decide⟩

/-- C10: `convertToAvroMap` is total; inputs that fail to marshal or do
not marshal to a JSON object yield the empty map, and an object yields
a map with exactly the object's keys, keeping string values verbatim,
turning null into the empty string and any other value into its compact
JSON text. -/
theorem c10_convert_to_avro_map (d : GoData) :
    (goMarshal d = .error () → convertToAvroMap d = []) ∧
    (∀ j, goMarshal d = .ok j → (∀ kvs, j ≠ .gobj kvs) → convertToAvroMap d = []) ∧
    (∀ kvs, goMarshal d = .ok (.gobj kvs) →
      convertToAvroMap d = kvs.map (fun kv => (kv.1, avroMapValue kv.2)) ∧
      (convertToAvroMap d).map Prod.fst = kvs.map Prod.fst) ∧
    (∀ s, avroMapValue (.gstr s) = s) ∧
    avroMapValue .gnull = "" ∧
    (∀ b, avroMapValue (.gbool b) = jsonCompact (.gbool b)) ∧
    (∀ n, avroMapValue (.gnum n) = jsonCompact (.gnum n)) ∧
    (∀ xs, avroMapValue (.garr xs) = jsonCompact (.garr xs)) ∧
    (∀ kvs, avroMapValue (.gobj kvs) = jsonCompact (.gobj kvs)) := by
  refine ⟨?_, ?_, ?_, fun s => rfl, rfl, fun b => rfl, fun n => rfl, fun xs => rfl,
    fun kvs => rfl⟩
  · intro h
    unfold convertToAvroMap
    rw [h]
  · intro j hok hne
    unfold convertToAvroMap
    rw [hok]
    cases j with
    | gobj kvs => exact absurd rfl (hne kvs)
    | gnull => rfl
    | gbool b => rfl
    | gnum n => rfl
    | gstr s => rfl
    | garr xs => rfl
  · intro kvs hok
    unfold convertToAvroMap
    rw [hok]
    exact ⟨rfl, by simp⟩

/-- Witness for C1 at a concrete record schema with a union field: the
hypotheses hold and the round trip goes through. -/
theorem c1_round_trip_witness :
    ∃ bytes json,
      encodeB (.srecord "r" [("f", .sunion [.snull, .sstring], some .vnull)])
        (.vrec [("f", .vstr "x")]) = .ok bytes ∧
      decodeWhole (.srecord "r" [("f", .sunion [.snull, .sstring], some .vnull)])
        bytes = .ok (.vrec [("f", .vstr "x")]) ∧
      encodeT (.srecord "r" [("f", .sunion [.snull, .sstring], some .vnull)])
        (.vrec [("f", .vstr "x")]) = .ok json ∧
      decodeT (.srecord "r" [("f", .sunion [.snull, .sstring], some .vnull)])
        json = .ok (.vrec [("f", .vstr "x")]) :=
  c1_round_trip (.srecord "r" [("f", .sunion [.snull, .sstring], some .vnull)])
    (.vrec [("f", .vstr "x")])
    (by simp [wfB, wfBranches, wfFieldList, allDistinct, branchName, isUnion])
    (by simp [validB, validRFields, firstMatch, kindMatches]; decide)

/-- Witness for C2: the two orders of a concrete two-entry map encode
to the same bytes. -/
theorem c2_map_determinism_witness :
    encodeB (.smap .sstring) (.vmap [("a", .vstr "x"), ("b", .vstr "y")]) =
      encodeB (.smap .sstring) (.vmap [("b", .vstr "y"), ("a", .vstr "x")]) :=
  c2_map_determinism .sstring [("a", .vstr "x"), ("b", .vstr "y")]
    [("b", .vstr "y"), ("a", .vstr "x")]
    (List.Perm.swap ("b", Value.vstr "y") ("a", Value.vstr "x") [])
    (by decide)

/-- Witness for C4: the proper prefix [0x80] of the encoding [0x80, 0x01]
of the long 64 fails to decode with the truncation error. -/
theorem c4_truncation_witness :
    decodeWhole .slong [128] = .error .truncated ∧
      decodeB .slong [128] = .error .truncated :=
  c4_truncation .slong (.vlong 64) (by simp [wfB]) (by simp [validB]) [128, 1]
    (by
      have hz : zigzag 64 = 128 := by decide
      have hv : varintEnc 128 = [128, 1] := by
        rw [varintEnc]
        norm_num
        rw [varintEnc_small (by norm_num)]
      simp [encodeB, hz, hv])
    [128] [1] rfl (by simp) (by simp)

/-- Witness for C3 (amended): the unencodable input makes marshaling
fail, and both conversion helpers return the empty map. -/
theorem c3_amended_witness :
    convertToAvroMap GoData.unencodable = [] ∧
      structToMap GoData.unencodable = [] :=
  c3_amended GoData.unencodable rfl
